import Mathlib

/-!
Verification development for the static reachability analyzer in
scripts/system-walker.py.

The analyzer walks a source tree, extracts textual references between files
(JS/TS imports, Python relative imports, HTML attributes, CSS imports/urls),
resolves them to absolute paths with an extension/index fallback, computes the
set of files reachable from a set of root files by breadth-first search, and
classifies directories as unnecessary / keep based on which of their files are
reachable.

Paths are modelled as lists of path segments of an absolute POSIX path
(the empty list is the filesystem root). The filesystem is modelled as a
finite structure listing files, directories, and the readable text contents.
Python stdlib parsing engines (the re module, ast.parse, HTMLParser) are
modelled as abstract extractor functions supplying the raw captured strings;
every piece of logic written in system-walker.py itself is translated
directly.
-/

/-- Absolute filesystem path, as the list of its segments. -/
abbrev FPath := List String

/-- Lexicographic comparison of character lists by code point, as Python
compares strings. -/
def leChars : List Char → List Char → Bool
  | [], _ => true
  | _ :: _, [] => false
  | a :: as, b :: bs => if a < b then true else if a == b then leChars as bs else false

/-- Python string comparison s1 <= s2 (code-point lexicographic). -/
def strLe (a b : String) : Bool := leChars a.toList b.toList

/-- Python str.lower restricted to ASCII case mapping. -/
def lowerStr (s : String) : String := String.mk (s.toList.map Char.toLower)

/-- Python s.startswith(pre). -/
def strStarts (s pre : String) : Bool := pre.toList.isPrefixOf s.toList

/-- Auxiliary splitter: accumulates the current segment (reversed). -/
def splitCharAux (c : Char) : List Char → List Char → List String
  | [], acc => [String.mk acc.reverse]
  | x :: xs, acc =>
    if x == c then String.mk acc.reverse :: splitCharAux c xs []
    else splitCharAux c xs (x :: acc)

/-- Python s.split(c) for a single-character separator. -/
def splitOnChar (c : Char) (s : String) : List String := splitCharAux c s.toList []

/-- Python sep.join(l) for the pieces of a path or report. -/
def joinWith (sep : String) : List String → String
  | [] => ""
  | [x] => x
  | x :: y :: ys => x ++ sep ++ joinWith sep (y :: ys)

/-- Python s.split(c, 1)[0]: the prefix of s before the first occurrence of c. -/
def cutAt (c : Char) (s : String) : String := String.mk (s.toList.takeWhile (· != c))

/-- Python s.lstrip of the slash character. -/
def dropLeadSlashes (s : String) : String := String.mk (s.toList.dropWhile (· == '/'))

/-- Python s.strip of the dot character: dots removed from both ends. -/
def stripDots (s : String) : String :=
  String.mk (((s.toList.dropWhile (· == '.')).reverse.dropWhile (· == '.')).reverse)

/-- Python s.replace of every dot by a slash (module path to relative path). -/
def replaceDots (s : String) : String :=
  String.mk (s.toList.map (fun c => if c == '.' then '/' else c))

/-- Python s.strip() trimming surrounding whitespace. -/
def trimStr (s : String) : String :=
  String.mk (((s.toList.dropWhile Char.isWhitespace).reverse.dropWhile Char.isWhitespace).reverse)

/-- Indentation used by list_tree: two spaces per depth level. -/
def indentStr (j : Nat) : String := String.mk (List.replicate (2 * j) ' ')

/-- Keep the first occurrence of each element, as Python dict.fromkeys does. -/
def dedupFirstAux {α : Type} [DecidableEq α] : List α → List α → List α
  | _, [] => []
  | seen, x :: xs =>
    if x ∈ seen then dedupFirstAux seen xs else x :: dedupFirstAux (x :: seen) xs

/-- Python list(dict.fromkeys(l)): order-preserving deduplication. -/
def dedupKeepFirst {α : Type} [DecidableEq α] (l : List α) : List α := dedupFirstAux [] l

/-- The final segment of a path (Python Path.name), empty at the root. -/
def lastSeg (p : FPath) : String := p.getLastD ""

/-- Python PurePath.suffix of a file name: the final extension including the
dot, empty when the name has no internal dot. -/
def lastDotIdx : List Char → Option Nat
  | [] => none
  | c :: cs =>
    match lastDotIdx cs with
    | some i => some (i + 1)
    | none => if c == '.' then some 0 else none

/-- Python Path.suffix computed from the file name. -/
def suffixOf (name : String) : String :=
  let cs := name.toList
  match lastDotIdx cs with
  | some i => if 0 < i ∧ i < cs.length - 1 then String.mk (cs.drop i) else ""
  | none => ""

/-- Python p.suffix for a modelled path. -/
def pathSuffix (p : FPath) : String := suffixOf (lastSeg p)

/-- One step of POSIX path normalization as performed by Path.resolve:
current-directory and empty segments vanish, a parent segment pops. -/
def normStep (acc : List String) (s : String) : List String :=
  if s = "" ∨ s = "." then acc
  else if s = ".." then acc.dropLast
  else acc ++ [s]

/-- Path.resolve on an absolute segment list (no symlinks in the model). -/
def normSegs (segs : List String) : List String := segs.foldl normStep []

/-- Python str(Path): render an absolute path. -/
def strPath (p : FPath) : String := "/" ++ joinWith "/" p

/-- Python str(path) + ext: append a suffix to the final segment. -/
def addSuffix (p : FPath) (ext : String) : FPath := p.dropLast ++ [lastSeg p ++ ext]

/-- The filesystem as seen by the analyzer: regular files in directory
enumeration order, directories, and the text contents of the files that can be
read and decoded (a file absent from texts is unreadable). -/
structure FS where
  files : List FPath
  dirs : List FPath
  texts : List (FPath × String)

/-- Python Path.is_file in the model. -/
def isFile (fs : FS) (p : FPath) : Bool := fs.files.contains p

/-- Python Path.is_dir in the model. -/
def isDir (fs : FS) (p : FPath) : Bool := fs.dirs.contains p

/-- Python Path.exists in the model. -/
def fsExists (fs : FS) (p : FPath) : Bool := isFile fs p || isDir fs p

/-- Python path.read_text: some text when readable and decodable. -/
def readText (fs : FS) (p : FPath) : Option String := fs.texts.lookup p

/-- COMMON_EXTS from system-walker.py (suffix fallback priority list). -/
def COMMON_EXTS : List String :=
  ["", ".js", ".jsx", ".ts", ".tsx", ".mjs", ".cjs",
   ".css", ".scss", ".less", ".html", ".htm", ".py"]

/-- Extension order for the index-file probe inside a directory candidate. -/
def INDEX_EXTS : List String :=
  [".js", ".ts", ".tsx", ".jsx", ".mjs", ".cjs", ".html", ".htm", ".py"]

/-- try_extensions from system-walker.py: the candidate as-is, then each
suffix from COMMON_EXTS, then index files inside a directory candidate. -/
def try_extensions (fs : FS) (path : FPath) : Option FPath :=
  if isFile fs path then some path
  else
    match (COMMON_EXTS.map (addSuffix path)).find? (isFile fs) with
    | some p => some p
    | none =>
      if isDir fs path then
        (INDEX_EXTS.map (fun ext => path ++ ["index" ++ ext])).find? (isFile fs)
      else none

/-- The full ordered candidate list tried by try_extensions. -/
def try_candidates (fs : FS) (path : FPath) : List FPath :=
  path :: (COMMON_EXTS.map (addSuffix path) ++
    (if isDir fs path then INDEX_EXTS.map (fun ext => path ++ ["index" ++ ext]) else []))

/-- looks_relative from system-walker.py. -/
def looks_relative (s : String) : Bool :=
  strStarts s "./" || strStarts s "../" || strStarts s "/"

/-- resolve_relative from system-walker.py: strip fragment and query, then
resolve root-relative or file-relative and run the extension fallback. -/
def resolve_relative (fs : FS) (base_file : FPath) (rel : String) (root : FPath) :
    Option FPath :=
  let r := cutAt '?' (cutAt '#' rel)
  if strStarts r "/" then
    try_extensions fs (normSegs (root ++ splitOnChar '/' (dropLeadSlashes r)))
  else
    try_extensions fs (normSegs (base_file.dropLast ++ splitOnChar '/' r))

/-- A relative-import statement node as produced by ast.parse:
the number of leading dots and the dotted module name (none for a bare
"from . import x"). -/
structure PyImp where
  level : Nat
  module : Option String

/-- The Python stdlib parsing engines used by extract_edges_for_file, modelled
as abstract functions returning the captured strings: jsImports gives the
group(1) captures of JS_IMPORT_RE in order, cssImports and cssUrls those of
CSS_IMPORT_RE and CSS_URL_RE, htmlRefs the attribute values collected by
SimpleHTMLRefParser (none when feed raises), pyAst the relative ImportFrom
nodes found by ast.parse (none when parsing raises), and pyRegex the group(1)
captures of the regex fallback pattern. -/
structure Extractors where
  jsImports : String → List String
  cssImports : String → List String
  cssUrls : String → List String
  htmlRefs : String → Option (List String)
  pyAst : String → Option (List PyImp)
  pyRegex : String → List String

/-- The target of one AST relative-import node, from the .py branch of
extract_edges_for_file: the level only gates (must be nonzero), the module
name only (must be truthy) determines the candidate path. -/
def py_ast_target (fs : FS) (path : FPath) (root : FPath) (imp : PyImp) :
    Option FPath :=
  match imp.module with
  | none => none
  | some m =>
    if imp.level ≠ 0 ∧ m ≠ "" then
      let rel := "./" ++ replaceDots m
      (resolve_relative fs path (rel ++ ".py") root).or (resolve_relative fs path rel root)
    else none

/-- The target of one regex-fallback capture in the .py branch: leading and
trailing dots stripped, inner dots replaced by slashes. -/
def py_fallback_target (fs : FS) (path : FPath) (root : FPath) (g : String) :
    Option FPath :=
  let module := replaceDots (stripDots g)
  let rel := "./" ++ module
  (resolve_relative fs path (rel ++ ".py") root).or (resolve_relative fs path rel root)

/-- The edges contributed by the regex fallback of the .py branch. -/
def py_regex_edges (fs : FS) (ex : Extractors) (path : FPath) (root : FPath)
    (text : String) : List FPath :=
  (ex.pyRegex text).filterMap (py_fallback_target fs path root)

/-- extract_edges_for_file from system-walker.py: dispatch on the lower-cased
extension; an unreadable file contributes nothing; the .py branch uses the
AST when it parses and otherwise the regex fallback. -/
def extract_edges_for_file (fs : FS) (ex : Extractors) (path : FPath) (root : FPath) :
    List FPath :=
  let ext := lowerStr (pathSuffix path)
  match readText fs path with
  | none => []
  | some text =>
    if ext ∈ [".js", ".jsx", ".ts", ".tsx", ".mjs", ".cjs"] then
      (ex.jsImports text).filterMap (fun spec =>
        let s := trimStr spec
        if looks_relative s then resolve_relative fs path s root else none)
    else if ext = ".py" then
      match ex.pyAst text with
      | some imps => imps.filterMap (py_ast_target fs path root)
      | none => py_regex_edges fs ex path root text
    else if ext ∈ [".html", ".htm"] then
      match ex.htmlRefs text with
      | some refs => refs.filterMap (fun ref =>
          if looks_relative ref then resolve_relative fs path ref root else none)
      | none => []
    else if ext ∈ [".css", ".scss", ".less"] then
      (ex.cssImports text).filterMap (fun spec =>
        let s := trimStr spec
        if looks_relative s then resolve_relative fs path s root else none) ++
      (ex.cssUrls text).filterMap (fun spec =>
        let s := trimStr spec
        if looks_relative s then resolve_relative fs path s root else none)
    else []

/-- Conventional entry-point relative paths probed by detect_roots. -/
def root_candidates : List String :=
  ["index.html", "public/index.html", "web/index.html", "frontend/index.html",
   "server.js", "api/server.js", "app.js", "main.js",
   "main.tsx", "src/main.tsx", "src/index.tsx",
   "app.py", "wsgi.py", "run.py"]

/-- detect_roots from system-walker.py: probe the conventional entry names
under the project root, then index.html and index.htm inside each scan
directory, deduplicated keeping first occurrences. -/
def detect_roots (fs : FS) (root : FPath) (scan_dirs : List FPath) : List FPath :=
  let part1 := root_candidates.filterMap (fun c =>
    let p := root ++ splitOnChar '/' c
    if fsExists fs p then some (normSegs p) else none)
  let part2 := scan_dirs.flatMap (fun d0 =>
    let d := normSegs d0
    if isDir fs d then
      ["index.html", "index.htm"].filterMap (fun n =>
        if fsExists fs (d ++ [n]) then some (normSegs (d ++ [n])) else none)
    else [])
  dedupKeepFirst (part1 ++ part2)

/-- The dependency graph: a file keyed to the set of files it references,
realised as an association list built over the collected files. -/
abbrev Graph := List (FPath × List FPath)

/-- build_graph from system-walker.py (dict values are sets, modelled as
deduplicated lists). -/
def build_graph (fs : FS) (ex : Extractors) (root : FPath) (files : List FPath) :
    Graph :=
  files.map (fun f => (f, dedupKeepFirst (extract_edges_for_file fs ex f root)))

/-- graph.get(cur, ()) from reachable_from. -/
def adjOf (g : Graph) (x : FPath) : List FPath := (g.lookup x).getD []

/-- Every node mentioned by the graph: sources and targets. -/
def graphNodes (g : Graph) : List FPath := g.map Prod.fst ++ g.flatMap Prod.snd

/-- One iteration of the seeding loop of reachable_from: an existing root
enters the seen set (set semantics) and is appended to the queue. -/
def seedStep (fs : FS) (sq : List FPath × List FPath) (r : FPath) :
    List FPath × List FPath :=
  if fsExists fs r then
    (if r ∈ sq.1 then sq.1 else sq.1 ++ [r], sq.2 ++ [r])
  else sq

/-- The seeding loop of reachable_from over the whole root list. -/
def initSeed (fs : FS) (roots : List FPath) : List FPath × List FPath :=
  roots.foldl (seedStep fs) ([], [])

/-- The inner neighbour loop of reachable_from: each unseen neighbour is
added to the seen set and appended to the queue. -/
def stepNbrs (nbrs seen q : List FPath) : List FPath × List FPath :=
  nbrs.foldl (fun sq nxt =>
    if nxt ∈ sq.1 then sq else (sq.1 ++ [nxt], sq.2 ++ [nxt])) (seen, q)

/-- The while-loop of reachable_from, with explicit fuel; none signals fuel
exhaustion with work remaining (shown below never to occur at the fuel chosen
by reachable_from). -/
def bfsAux (g : Graph) : Nat → List FPath → List FPath → Option (List FPath)
  | _, seen, [] => some seen
  | 0, _, _ :: _ => none
  | fuel + 1, seen, cur :: rest =>
    let sq := stepNbrs (adjOf g cur) seen rest
    bfsAux g fuel sq.1 sq.2

/-- reachable_from from system-walker.py: breadth-first search over the graph
from the existing roots. -/
def reachable_from (fs : FS) (g : Graph) (roots : List FPath) : List FPath :=
  let sq := initSeed fs roots
  (bfsAux g (sq.2.length + (graphNodes g).length) sq.1 sq.2).getD sq.1

/-- The hidden-name filter of compute_results (checked on the entry name
itself only). -/
def should_visit (include_hidden : Bool) (p : FPath) : Bool :=
  include_hidden || !(strStarts (lastSeg p) ".")

/-- Membership of a path strictly below a scan directory, as enumerated by
base.rglob. -/
def isUnder (base p : FPath) : Bool := base.isPrefixOf p && p != base

/-- The file-collection loop of compute_results: files under the scan
directories in enumeration order, dropping hidden names, keeping allowed
extensions, deduplicated keeping first occurrences. -/
def collect_files (fs : FS) (scan_dirs : List FPath) (allowed_exts : List String)
    (include_hidden : Bool) : List FPath :=
  dedupKeepFirst ((scan_dirs.flatMap (fun base => fs.files.filter (isUnder base))).filter
    (fun p => should_visit include_hidden p &&
      allowed_exts.contains (lowerStr (pathSuffix p))))

/-- The automatic root selection of compute_results: conventional roots, else
the first ten markup files in collection order. -/
def auto_roots (fs : FS) (root : FPath) (scan_dirs : List FPath)
    (files : List FPath) : List FPath :=
  let roots := detect_roots fs root scan_dirs
  if roots.isEmpty then
    (files.filter (fun f => [".html", ".htm"].contains (lowerStr (pathSuffix f)))).take 10
  else roots

/-- The path an explicit --roots entry denotes: absolute entries stand alone,
relative entries are joined to the project root, then resolved. -/
def cliPath (root : FPath) (r : String) : FPath :=
  if strStarts r "/" then normSegs (splitOnChar '/' r)
  else normSegs (root ++ splitOnChar '/' r)

/-- The root-selection block of compute_results: a truthy explicit list is
filtered by existence and used as-is; otherwise the automatic selection runs. -/
def select_roots (fs : FS) (root : FPath) (scan_dirs : List FPath)
    (files : List FPath) (roots_cli : Option (List String)) : List FPath :=
  match roots_cli with
  | some rcli =>
    if rcli.isEmpty then auto_roots fs root scan_dirs files
    else
      rcli.filterMap (fun r =>
        if fsExists fs (cliPath root r) then some (cliPath root r) else none)
  | none => auto_roots fs root scan_dirs files

/-- All proper ancestor directories of a path, from the filesystem root down:
exactly the directories visited by the while-loop walking f.parent upward. -/
def ancestorsOf (p : FPath) : List FPath :=
  (List.range (p.length + 1)).map (fun k => p.take k)

/-- The scan-scope test of categorize_folders: the rendered directory string
starts with some rendered scan-directory string. -/
def inScanScope (scan_dirs : List FPath) (d : FPath) : Bool :=
  scan_dirs.any (fun sd => strStarts (strPath d) (strPath sd))

/-- The ancestors of a file that pass the scan-scope test: the directories to
whose owned-file set the file is added by categorize_folders. -/
def checkedAncestors (scan_dirs : List FPath) (f : FPath) : List FPath :=
  (ancestorsOf f.dropLast).filter (inScanScope scan_dirs)

/-- The owned-file set dir_files[d] built by categorize_folders. -/
def dirOwned (scan_dirs : List FPath) (all_files : List FPath) (d : FPath) :
    List FPath :=
  all_files.filter (fun f => d ∈ checkedAncestors scan_dirs f)

/-- The key set of the dir_files mapping: directories owning at least one
discovered file. -/
def owned_dirs (scan_dirs : List FPath) (all_files : List FPath) : List FPath :=
  dedupKeepFirst (all_files.flatMap (checkedAncestors scan_dirs))

/-- os.path.relpath component arithmetic: length of the common prefix. -/
def commonPrefixLen : List String → List String → Nat
  | a :: as, b :: bs => if a = b then commonPrefixLen as bs + 1 else 0
  | _, _ => 0

/-- os.path.relpath on segment lists. -/
def relpathSegs (root p : FPath) : List String :=
  let c := commonPrefixLen root p
  List.replicate (root.length - c) ".." ++ p.drop c

/-- norm_rel from system-walker.py: the relative path from the project root,
rendered with forward slashes. -/
def norm_rel (root p : FPath) : String :=
  let segs := relpathSegs root p
  if segs = [] then "." else joinWith "/" segs

/-- Python sorted with key norm_rel (stable insertion sort by the rendered
relative path). -/
def sortByRel (root : FPath) (l : List FPath) : List FPath :=
  List.insertionSort (fun a b => strLe (norm_rel root a) (norm_rel root b) = true) l

/-- vsc_sort from system-walker.py: stable sort by the lower-cased relative
path. -/
def vsc_sort (paths : List FPath) (root : FPath) : List FPath :=
  List.insertionSort
    (fun a b => strLe (lowerStr (norm_rel root a)) (lowerStr (norm_rel root b)) = true) paths

/-- categorize_folders from system-walker.py: the unused set is the
set difference of all files and used files; a directory with a non-empty
owned set is unnecessary when that set is contained in the unused set, and a
keep directory otherwise when it owns both a used and an unused file; the
three result lists are sorted by relative path. -/
def categorize_folders (root : FPath) (all_files used_files : List FPath)
    (scan_dirs : List FPath) : List FPath × List FPath × List FPath :=
  let unused := dedupKeepFirst (all_files.filter (fun f => !(used_files.contains f)))
  let dirs := owned_dirs scan_dirs all_files
  let unnecessary := dirs.filter (fun d =>
    let fl := dirOwned scan_dirs all_files d
    !fl.isEmpty && fl.all (fun f => unused.contains f))
  let keep := dirs.filter (fun d =>
    let fl := dirOwned scan_dirs all_files d
    !fl.isEmpty && !(fl.all (fun f => unused.contains f)) &&
      (fl.any (fun f => used_files.contains f) && fl.any (fun f => unused.contains f)))
  (sortByRel root unnecessary, sortByRel root keep, sortByRel root unused)

/-- The segment lines emitted for one relative path by list_tree, starting at
the first index where it diverges from the previous path. -/
def treeEmit (parts : List String) (i : Nat) : List String :=
  (List.range' i (parts.length - i)).map (fun j => indentStr j ++ parts.getD j "")

/-- The rendering loop of list_tree over the split relative paths. -/
def treeLines : List String → List (List String) → List String
  | _, [] => []
  | prev, parts :: rest =>
    treeEmit parts (commonPrefixLen prev parts) ++ treeLines parts rest

/-- list_tree from system-walker.py: relative paths of the used files, sorted
by plain string order, rendered as an indentation tree that re-emits a segment
only where the path diverges from the previous entry. -/
def list_tree (root : FPath) (used_files : List FPath) : String :=
  let used_rel := List.insertionSort (fun a b : String => strLe a b = true)
    (used_files.map (norm_rel root))
  let tree := treeLines [] (used_rel.map (splitOnChar '/'))
  if tree.isEmpty then "(none)" else joinWith "\n" tree

/-- Rendering described by the specification text for the used-file tree: the
same emission loop, but over relative paths sorted case-insensitively. This
definition follows the words of the specification and is compared against
list_tree, which is translated from the source. -/
def list_tree_spec_ci (root : FPath) (used_files : List FPath) : String :=
  let used_rel := List.insertionSort (fun a b : String => strLe (lowerStr a) (lowerStr b) = true)
    (used_files.map (norm_rel root))
  let tree := treeLines [] (used_rel.map (splitOnChar '/'))
  if tree.isEmpty then "(none)" else joinWith "\n" tree

/-- compute_results from system-walker.py, without the stamping and report
writing side effects: collect the files, select the roots, build the graph,
compute the reachable set, classify; returns files, used, unnecessary
directories, keep directories, other unused files. -/
def compute_results (fs : FS) (ex : Extractors) (root : FPath)
    (scan_dirs : List FPath) (allowed_exts : List String)
    (roots_cli : Option (List String)) (include_hidden : Bool) :
    List FPath × List FPath × List FPath × List FPath × List FPath :=
  let files := collect_files fs scan_dirs allowed_exts include_hidden
  let roots := select_roots fs root scan_dirs files roots_cli
  let graph := build_graph fs ex root files
  let used := reachable_from fs graph roots
  let c := categorize_folders root files used scan_dirs
  (files, used, c.1, c.2.1, c.2.2)

/-! ## Basic membership lemmas for the model-level containers -/

theorem mem_dedupFirstAux {α : Type} [DecidableEq α] (x : α) :
    ∀ (l seen : List α), x ∈ dedupFirstAux seen l ↔ x ∈ l ∧ x ∉ seen := by
  intro l
  induction l with
  | nil => intro seen; simp [dedupFirstAux]
  | cons a as ih =>
    intro seen
    by_cases ha : a ∈ seen
    · rw [dedupFirstAux, if_pos ha, ih]
      constructor
      · rintro ⟨h1, h2⟩; exact ⟨List.mem_cons_of_mem a h1, h2⟩
      · rintro ⟨h1, h2⟩
        rcases List.mem_cons.mp h1 with rfl | h1
        · exact absurd ha h2
        · exact ⟨h1, h2⟩
    · rw [dedupFirstAux, if_neg ha, List.mem_cons, ih]
      constructor
      · rintro (rfl | ⟨h1, h2⟩)
        · exact ⟨List.mem_cons_self x as, ha⟩
        · exact ⟨List.mem_cons_of_mem a h1,
            fun hs => h2 (List.mem_cons_of_mem a hs)⟩
      · rintro ⟨h1, h2⟩
        by_cases hxa : x = a
        · exact Or.inl hxa
        · rcases List.mem_cons.mp h1 with rfl | h1
          · exact Or.inl rfl
          · exact Or.inr ⟨h1, fun hs => (List.mem_cons.mp hs).elim hxa h2⟩

theorem mem_dedupKeepFirst {α : Type} [DecidableEq α] (x : α) (l : List α) :
    x ∈ dedupKeepFirst l ↔ x ∈ l := by
  simp [dedupKeepFirst, mem_dedupFirstAux]

theorem contains_iff_mem {α : Type} [DecidableEq α] [BEq α] [LawfulBEq α]
    (l : List α) (a : α) : l.contains a = true ↔ a ∈ l := by
  simp [List.contains, List.elem_iff]

theorem mem_sortByRel (root : FPath) (l : List FPath) (x : FPath) :
    x ∈ sortByRel root l ↔ x ∈ l := by
  simp [sortByRel, List.mem_insertionSort]

/-! ## C6: ordered fallback of the path resolver -/

/-- C6: path resolution follows the fixed ordered fallback. The resolver's
try_extensions returns the first existing file in the ordered candidate list
(the path as-is, then each suffix of the fixed priority list, then the index
files of a directory candidate); resolution depends only on the file and
directory sets, not on file contents; and in the concrete scenario of the
claim, the reference ./util from /src/app.js with both /src/util.js and
/src/util/index.js present resolves to /src/util.js, the suffix match
preferred over the index match. -/
theorem claim_C6_resolution_fallback :
    (∀ (fs : FS) (p : FPath),
      try_extensions fs p = (try_candidates fs p).find? (isFile fs))
    ∧ (∀ (fi di : List FPath) (t t' : List (FPath × String)) (base : FPath)
        (r : String) (root : FPath),
        resolve_relative ⟨fi, di, t⟩ base r root =
          resolve_relative ⟨fi, di, t'⟩ base r root)
    ∧ resolve_relative
        ⟨[["src", "app.js"], ["src", "util.js"], ["src", "util", "index.js"]],
         [[], ["src"], ["src", "util"]], []⟩
        ["src", "app.js"] "./util" [] = some ["src", "util.js"] := by
  refine ⟨?_, ?_, ?_⟩
  · intro fs p
    by_cases hf : isFile fs p
    · simp [try_extensions, try_candidates, hf]
    · by_cases hd : isDir fs p <;>
        simp only [try_extensions, try_candidates, hf, if_neg, if_pos, hd,
          Bool.false_eq_true, not_false_eq_true, List.find?_cons_of_neg,
          List.find?_append, if_true, if_false] <;>
        cases hm : (COMMON_EXTS.map (addSuffix p)).find? (isFile fs) <;>
        simp [hm, Option.or]
  · intro fi di t t' base r root
    rfl
  · decide

/-! ## Classifier lemmas -/

theorem contains_eq_decide {α : Type} [DecidableEq α] [BEq α] [LawfulBEq α]
    (l : List α) (a : α) : l.contains a = decide (a ∈ l) := by
  by_cases h : a ∈ l
  · rw [decide_eq_true h]
    exact (contains_iff_mem l a).mpr h
  · rw [decide_eq_false h]
    exact Bool.eq_false_iff.mpr (fun hc => h ((contains_iff_mem l a).mp hc))

theorem mem_dirOwned (scans files : List FPath) (d f : FPath) :
    f ∈ dirOwned scans files d ↔ f ∈ files ∧ d ∈ checkedAncestors scans f := by
  simp [dirOwned, List.mem_filter]

theorem mem_owned_dirs (scans files : List FPath) (d : FPath) :
    d ∈ owned_dirs scans files ↔ ∃ f ∈ files, d ∈ checkedAncestors scans f := by
  simp [owned_dirs, mem_dedupKeepFirst, List.mem_flatMap]

theorem dirOwned_ne_nil_iff (scans files : List FPath) (d : FPath) :
    dirOwned scans files d ≠ [] ↔ ∃ f ∈ files, d ∈ checkedAncestors scans f := by
  unfold dirOwned
  rw [Ne, List.filter_eq_nil_iff]
  push_neg
  simp

theorem mem_owned_dirs_iff_ne_nil (scans files : List FPath) (d : FPath) :
    d ∈ owned_dirs scans files ↔ dirOwned scans files d ≠ [] := by
  rw [mem_owned_dirs, dirOwned_ne_nil_iff]

theorem unused_contains_iff (files used : List FPath) (f : FPath) :
    (dedupKeepFirst (files.filter (fun g => !(used.contains g)))).contains f = true ↔
      f ∈ files ∧ f ∉ used := by
  rw [contains_iff_mem, mem_dedupKeepFirst, List.mem_filter]
  simp [contains_eq_decide]

theorem categorize_unnecessary_eq (root : FPath) (files used scans : List FPath) :
    (categorize_folders root files used scans).1 =
      sortByRel root ((owned_dirs scans files).filter (fun d =>
        !(dirOwned scans files d).isEmpty &&
        (dirOwned scans files d).all (fun f =>
          (dedupKeepFirst (files.filter (fun g => !(used.contains g)))).contains f))) := rfl

theorem categorize_keep_eq (root : FPath) (files used scans : List FPath) :
    (categorize_folders root files used scans).2.1 =
      sortByRel root ((owned_dirs scans files).filter (fun d =>
        !(dirOwned scans files d).isEmpty &&
        !((dirOwned scans files d).all (fun f =>
          (dedupKeepFirst (files.filter (fun g => !(used.contains g)))).contains f)) &&
        ((dirOwned scans files d).any (fun f => used.contains f) &&
         (dirOwned scans files d).any (fun f =>
          (dedupKeepFirst (files.filter (fun g => !(used.contains g)))).contains f)))) := rfl

theorem mem_unnecessary_iff (root : FPath) (files used scans : List FPath) (d : FPath) :
    d ∈ (categorize_folders root files used scans).1 ↔
      dirOwned scans files d ≠ [] ∧ ∀ f ∈ dirOwned scans files d, f ∉ used := by
  rw [categorize_unnecessary_eq, mem_sortByRel, List.mem_filter, Bool.and_eq_true,
    Bool.not_eq_true', List.isEmpty_eq_false, List.all_eq_true, mem_owned_dirs_iff_ne_nil]
  constructor
  · rintro ⟨hne, -, hall⟩
    exact ⟨hne, fun f hf => ((unused_contains_iff files used f).mp (hall f hf)).2⟩
  · rintro ⟨hne, hall⟩
    exact ⟨hne, hne, fun f hf => (unused_contains_iff files used f).mpr
      ⟨((mem_dirOwned scans files d f).mp hf).1, hall f hf⟩⟩

theorem mem_keep_iff (root : FPath) (files used scans : List FPath) (d : FPath) :
    d ∈ (categorize_folders root files used scans).2.1 ↔
      (∃ f ∈ dirOwned scans files d, f ∈ used) ∧
        ∃ f ∈ dirOwned scans files d, f ∉ used := by
  rw [categorize_keep_eq, mem_sortByRel, List.mem_filter, Bool.and_eq_true,
    Bool.and_eq_true, Bool.and_eq_true, mem_owned_dirs_iff_ne_nil]
  constructor
  · rintro ⟨-, -, ⟨hanyU, hanyUn⟩⟩
    obtain ⟨f1, hf1, hc1⟩ := List.any_eq_true.mp hanyU
    obtain ⟨f2, hf2, hc2⟩ := List.any_eq_true.mp hanyUn
    exact ⟨⟨f1, hf1, (contains_iff_mem used f1).mp hc1⟩,
      f2, hf2, ((unused_contains_iff files used f2).mp hc2).2⟩
  · rintro ⟨⟨f1, hf1, hu1⟩, f2, hf2, hu2⟩
    refine ⟨List.ne_nil_of_mem hf1, ⟨?_, ?_⟩, ?_, ?_⟩
    · rw [Bool.not_eq_true', List.isEmpty_eq_false]
      exact List.ne_nil_of_mem hf1
    · rw [Bool.not_eq_true', Bool.eq_false_iff]
      intro hall
      exact ((unused_contains_iff files used f1).mp
        (List.all_eq_true.mp hall f1 hf1)).2 hu1
    · exact List.any_eq_true.mpr ⟨f1, hf1, (contains_iff_mem used f1).mpr hu1⟩
    · exact List.any_eq_true.mpr ⟨f2, hf2, (unused_contains_iff files used f2).mpr
        ⟨((mem_dirOwned scans files d f2).mp hf2).1, hu2⟩⟩

theorem mem_other_unused (root : FPath) (files used scans : List FPath) (f : FPath) :
    f ∈ (categorize_folders root files used scans).2.2 ↔ f ∈ files ∧ f ∉ used := by
  have heq : (categorize_folders root files used scans).2.2 =
      sortByRel root (dedupKeepFirst (files.filter (fun g => !(used.contains g)))) := rfl
  rw [heq, mem_sortByRel, ← unused_contains_iff files used f, contains_iff_mem]

/-! ## C1: directory classification invariant -/

/-- C1: for every run, a directory owning at least one discovered file is
classified unnecessary exactly when its owned set is non-empty and disjoint
from the used set, and keep exactly when its owned set contains both a used
and an unused file; the two lists exclude each other, and a directory all of
whose owned files are used lands in neither. -/
theorem claim_C1_directory_classification :
    ∀ (root : FPath) (files used scans : List FPath) (d : FPath),
      (d ∈ (categorize_folders root files used scans).1 ↔
        dirOwned scans files d ≠ [] ∧ ∀ f ∈ dirOwned scans files d, f ∉ used)
      ∧ (d ∈ (categorize_folders root files used scans).2.1 ↔
        (∃ f ∈ dirOwned scans files d, f ∈ used) ∧
          ∃ f ∈ dirOwned scans files d, f ∉ used)
      ∧ ¬(d ∈ (categorize_folders root files used scans).1 ∧
          d ∈ (categorize_folders root files used scans).2.1)
      ∧ ((dirOwned scans files d ≠ [] ∧ ∀ f ∈ dirOwned scans files d, f ∈ used) →
          d ∉ (categorize_folders root files used scans).1 ∧
          d ∉ (categorize_folders root files used scans).2.1) := by
  intro root files used scans d
  refine ⟨mem_unnecessary_iff root files used scans d,
    mem_keep_iff root files used scans d, ?_, ?_⟩
  · rintro ⟨h1, h2⟩
    obtain ⟨-, hall⟩ := (mem_unnecessary_iff root files used scans d).mp h1
    obtain ⟨⟨f, hf, hfu⟩, -⟩ := (mem_keep_iff root files used scans d).mp h2
    exact hall f hf hfu
  · rintro ⟨hne, hall⟩
    constructor
    · intro h1
      obtain ⟨-, hnotused⟩ := (mem_unnecessary_iff root files used scans d).mp h1
      obtain ⟨f, hf⟩ := List.exists_mem_of_ne_nil _ hne
      exact hnotused f hf (hall f hf)
    · intro h2
      obtain ⟨-, f, hf, hfu⟩ := (mem_keep_iff root files used scans d).mp h2
      exact hfu (hall f hf)

/-! ## C2: content of the other-unused-files list -/

/-- C2 counterexample: in a run where the subdirectory proj/sub holds only the
unused file proj/sub/b.js, that directory is reported as unnecessary and yet
the file still appears in the other-unused-files list, contradicting the
claimed directory-based filtering. -/
theorem claim_C2_counterexample :
    ["proj", "sub", "b.js"] ∈
      (categorize_folders ["proj"] [["proj", "index.html"], ["proj", "sub", "b.js"]]
        [["proj", "index.html"]] [["proj"]]).2.2
    ∧ ["proj", "sub"] ∈
      (categorize_folders ["proj"] [["proj", "index.html"], ["proj", "sub", "b.js"]]
        [["proj", "index.html"]] [["proj"]]).1 := by
  decide

/-- C2 amended: the other-unused-files list is the whole unreachable set,
sorted by relative path: a file appears in it exactly when it is discovered
and not reachable, with no filtering by containing directory. -/
theorem claim_C2_amended_other_unused :
    ∀ (root : FPath) (files used scans : List FPath) (f : FPath),
      f ∈ (categorize_folders root files used scans).2.2 ↔ f ∈ files ∧ f ∉ used := by
  intro root files used scans f
  exact mem_other_unused root files used scans f

/-! ## Order properties of the code-point string comparison -/

theorem leChars_total : ∀ as bs : List Char, leChars as bs = true ∨ leChars bs as = true := by
  intro as
  induction as with
  | nil => intro bs; left; rfl
  | cons a as ih =>
    intro bs
    cases bs with
    | nil => right; rfl
    | cons b bs =>
      rcases lt_trichotomy a b with h | h | h
      · left; simp [leChars, h]
      · subst h
        rcases ih bs with h2 | h2
        · left; simp [leChars, h2]
        · right; simp [leChars, h2]
      · right; simp [leChars, h]

theorem leChars_trans : ∀ as bs cs : List Char,
    leChars as bs = true → leChars bs cs = true → leChars as cs = true := by
  intro as
  induction as with
  | nil => intro bs cs h1 h2; rfl
  | cons a as ih =>
    intro bs cs h1 h2
    cases bs with
    | nil => exact absurd h1 (by simp [leChars])
    | cons b bs =>
      cases cs with
      | nil => exact absurd h2 (by simp [leChars])
      | cons c cs =>
        simp only [leChars] at h1 h2 ⊢
        by_cases hab : a < b
        · by_cases hbc : b < c
          · rw [if_pos (lt_trans hab hbc)]
          · rw [if_neg hbc] at h2
            by_cases hbec : b == c
            · have hbc' : b = c := eq_of_beq hbec
              subst hbc'
              rw [if_pos hab]
            · rw [if_neg hbec] at h2
              exact absurd h2 (by simp)
        · rw [if_neg hab] at h1
          by_cases haeb : a == b
          · have hab' : a = b := eq_of_beq haeb
            subst hab'
            rw [if_pos haeb] at h1
            by_cases hac : a < c
            · rw [if_pos hac]
            · rw [if_neg hac] at h2 ⊢
              by_cases haec : a == c
              · rw [if_pos haec] at h2 ⊢
                exact ih bs cs h1 h2
              · rw [if_neg haec] at h2
                exact absurd h2 (by simp)
          · rw [if_neg haeb] at h1
            exact absurd h1 (by simp)

theorem leChars_antisymm : ∀ as bs : List Char,
    leChars as bs = true → leChars bs as = true → as = bs := by
  intro as
  induction as with
  | nil =>
    intro bs h1 h2
    cases bs with
    | nil => rfl
    | cons b bs => exact absurd h2 (by simp [leChars])
  | cons a as ih =>
    intro bs h1 h2
    cases bs with
    | nil => exact absurd h1 (by simp [leChars])
    | cons b bs =>
      simp only [leChars] at h1 h2
      by_cases hab : a < b
      · rw [if_neg (lt_asymm hab)] at h2
        have hne : ¬(b == a) = true := by
          simp only [beq_iff_eq]
          exact (ne_of_lt hab).symm
        rw [if_neg hne] at h2
        exact absurd h2 (by simp)
      · rw [if_neg hab] at h1
        by_cases haeb : a == b
        · have hab' : a = b := eq_of_beq haeb
          subst hab'
          rw [if_pos haeb] at h1
          rw [if_neg hab, if_pos haeb] at h2
          rw [ih bs h1 h2]
        · rw [if_neg haeb] at h1
          exact absurd h1 (by simp)

/-! ## C9: tree rendering of the used files -/

/-- C9 counterexample: on the reachable set consisting of B.html and a.html
the rendered tree orders B.html first (plain code-point string sort), while
the case-insensitive sorting stated by the claim would order a.html first, so
the source rendering differs from the claimed one. -/
theorem claim_C9_counterexample :
    list_tree [] [["B.html"], ["a.html"]] ≠
      list_tree_spec_ci [] [["B.html"], ["a.html"]] := by
  decide

/-- C9 amended: the tree is built by sorting the relative paths in plain
code-point (case-sensitive) lexicographic order and emitting segments per
shared-prefix depth change; the rendering is deterministic: it depends only
on the set of reachable files, not on the order in which they are listed. -/
theorem claim_C9_amended_deterministic_rendering :
    ∀ (root : FPath) (l₁ l₂ : List FPath), l₁.Perm l₂ →
      list_tree root l₁ = list_tree root l₂ := by
  intro root l₁ l₂ hperm
  haveI hT : IsTrans String (fun a b => strLe a b = true) :=
    ⟨fun a b c h1 h2 => leChars_trans _ _ _ h1 h2⟩
  haveI hA : IsAntisymm String (fun a b => strLe a b = true) :=
    ⟨fun a b h1 h2 => String.ext (leChars_antisymm _ _ h1 h2)⟩
  haveI hTot : IsTotal String (fun a b => strLe a b = true) :=
    ⟨fun a b => leChars_total a.toList b.toList⟩
  have hmap : (l₁.map (norm_rel root)).Perm (l₂.map (norm_rel root)) := hperm.map _
  have hsorted :
      List.insertionSort (fun a b : String => strLe a b = true) (l₁.map (norm_rel root)) =
      List.insertionSort (fun a b : String => strLe a b = true) (l₂.map (norm_rel root)) := by
    have hs1 := List.sorted_insertionSort (fun a b : String => strLe a b = true)
      (l₁.map (norm_rel root))
    have hs2 := List.sorted_insertionSort (fun a b : String => strLe a b = true)
      (l₂.map (norm_rel root))
    exact @List.eq_of_perm_of_sorted String (fun a b => strLe a b = true) hA _ _
      (((List.perm_insertionSort _ _).trans hmap).trans
        (List.perm_insertionSort _ _).symm) hs1 hs2
  simp only [list_tree]
  rw [hsorted]

/-- C9 witness: the amended determinism theorem applied to a two-element
reachable set listed in both orders. -/
theorem claim_C9_witness :
    list_tree [] [["a.html"], ["B.html"]] = list_tree [] [["B.html"], ["a.html"]] :=
  claim_C9_amended_deterministic_rendering [] [["a.html"], ["B.html"]]
    [["B.html"], ["a.html"]] (by decide)

/-! ## C4: explicit root list with only nonexistent entries -/

/-- C4 counterexample: with an explicit root list whose single entry does not
exist, the selected root set is empty even though the automatic selection
(conventional probe, then markup fallback) would have produced a root,
because the automatic branch only runs when no explicit list was supplied. -/
theorem claim_C4_counterexample :
    select_roots ⟨[["proj", "a.html"]], [[], ["proj"]], []⟩ ["proj"] [["proj"]]
        [["proj", "a.html"]] (some ["missing.html"]) = []
    ∧ auto_roots ⟨[["proj", "a.html"]], [[], ["proj"]], []⟩ ["proj"] [["proj"]]
        [["proj", "a.html"]] ≠ [] := by
  decide

/-- C4 amended: nonexistent entries of a non-empty explicit root list are
dropped without error, the selected roots being exactly the existing entries;
when every entry is nonexistent the root set is empty, and neither the
convention-based probe nor the markup fallback runs. -/
theorem claim_C4_amended_explicit_roots :
    ∀ (fs : FS) (root : FPath) (scans files : List FPath) (rcli : List String),
      rcli ≠ [] →
      (select_roots fs root scans files (some rcli) =
        rcli.filterMap (fun r =>
          if fsExists fs (cliPath root r) then some (cliPath root r) else none))
      ∧ ((∀ r ∈ rcli, fsExists fs (cliPath root r) = false) →
        select_roots fs root scans files (some rcli) = []) := by
  intro fs root scans files rcli hne
  have heq : select_roots fs root scans files (some rcli) =
      rcli.filterMap (fun r =>
        if fsExists fs (cliPath root r) then some (cliPath root r) else none) := by
    simp only [select_roots]
    rw [if_neg (fun h => hne (List.isEmpty_iff.mp h))]
  refine ⟨heq, fun hall => ?_⟩
  rw [heq]
  rw [List.filterMap_eq_nil_iff]
  intro r hr
  rw [if_neg (by simp [hall r hr])]

/-- C4 witness: the amended theorem applied to a filesystem with one real
file and an explicit root list of two nonexistent entries. -/
theorem claim_C4_witness :
    select_roots ⟨[["proj", "a.html"]], [[], ["proj"]], []⟩ ["proj"] [["proj"]]
      [["proj", "a.html"]] (some ["missing.html", "gone.js"]) = [] :=
  (claim_C4_amended_explicit_roots ⟨[["proj", "a.html"]], [[], ["proj"]], []⟩
    ["proj"] [["proj"]] [["proj", "a.html"]] ["missing.html", "gone.js"]
    (by decide)).2 (by decide)

/-! ## C5: markup fallback for the root set -/

/-- Eleven markup files enumerated in ascending order. -/
def fsElevenA : FS :=
  ⟨[["proj", "b01.html"], ["proj", "b02.html"], ["proj", "b03.html"],
    ["proj", "b04.html"], ["proj", "b05.html"], ["proj", "b06.html"],
    ["proj", "b07.html"], ["proj", "b08.html"], ["proj", "b09.html"],
    ["proj", "b10.html"], ["proj", "b11.html"]], [[], ["proj"]], []⟩

/-- The same eleven markup files enumerated with b11 first. -/
def fsElevenB : FS :=
  ⟨[["proj", "b11.html"], ["proj", "b01.html"], ["proj", "b02.html"],
    ["proj", "b03.html"], ["proj", "b04.html"], ["proj", "b05.html"],
    ["proj", "b06.html"], ["proj", "b07.html"], ["proj", "b08.html"],
    ["proj", "b09.html"], ["proj", "b10.html"]], [[], ["proj"]], []⟩

/-- C5 counterexample: with eleven markup files and no conventional root, the
selected root set depends on the directory enumeration order: under one
enumeration b10.html is a root, under a permuted enumeration of the same
files it is not, so the fallback is not the sorted-order first ten. -/
theorem claim_C5_counterexample :
    (["proj", "b10.html"] ∈ select_roots fsElevenA ["proj"] [["proj"]]
      (collect_files fsElevenA [["proj"]] [".html"] false) none)
    ∧ (["proj", "b10.html"] ∉ select_roots fsElevenB ["proj"] [["proj"]]
      (collect_files fsElevenB [["proj"]] [".html"] false) none)
    ∧ fsElevenA.files.Perm fsElevenB.files := by
  decide

/-- C5 amended: when no explicit roots are supplied and the conventional
probe finds nothing, the root set is the first ten markup files in the order
the file list was collected (enumeration order, not sorted order); when at
most ten markup files exist the selection is the full markup set and is
therefore independent of enumeration order as a set. -/
theorem claim_C5_amended_enumeration_fallback :
    ∀ (fs : FS) (root : FPath) (scans files : List FPath),
      detect_roots fs root scans = [] →
      (select_roots fs root scans files none =
        (files.filter (fun f =>
          [".html", ".htm"].contains (lowerStr (pathSuffix f)))).take 10)
      ∧ ((files.filter (fun f =>
          [".html", ".htm"].contains (lowerStr (pathSuffix f)))).length ≤ 10 →
        ∀ f, f ∈ select_roots fs root scans files none ↔
          f ∈ files ∧ [".html", ".htm"].contains (lowerStr (pathSuffix f)) = true) := by
  intro fs root scans files hdet
  have h1 : select_roots fs root scans files none =
      (files.filter (fun f =>
        [".html", ".htm"].contains (lowerStr (pathSuffix f)))).take 10 := by
    simp only [select_roots, auto_roots, hdet, List.isEmpty_nil, if_true]
  refine ⟨h1, fun hlen f => ?_⟩
  rw [h1, List.take_of_length_le hlen, List.mem_filter]

/-- C5 witness: the amended theorem applied to a two-markup-file filesystem,
where the fallback selects both files. -/
theorem claim_C5_witness :
    select_roots ⟨[["proj", "a.html"], ["proj", "b.html"]], [[], ["proj"]], []⟩
      ["proj"] [["proj"]] [["proj", "a.html"], ["proj", "b.html"]] none =
      [["proj", "a.html"], ["proj", "b.html"]] := by
  rw [(claim_C5_amended_enumeration_fallback
    ⟨[["proj", "a.html"], ["proj", "b.html"]], [[], ["proj"]], []⟩
    ["proj"] [["proj"]] [["proj", "a.html"], ["proj", "b.html"]] (by decide)).1]
  decide

/-! ## C7: termination and closure of the breadth-first traversal -/

theorem stepNbrs_nil (seen q : List FPath) : stepNbrs [] seen q = (seen, q) := rfl

theorem stepNbrs_cons (n : FPath) (rest seen q : List FPath) :
    stepNbrs (n :: rest) seen q =
      if n ∈ seen then stepNbrs rest seen q
      else stepNbrs rest (seen ++ [n]) (q ++ [n]) := by
  by_cases hn : n ∈ seen <;> simp [stepNbrs, hn]

theorem stepNbrs_spec : ∀ (nbrs seen q : List FPath),
    ∃ new, stepNbrs nbrs seen q = (seen ++ new, q ++ new) ∧ new.Nodup ∧
      (∀ x ∈ new, x ∈ nbrs ∧ x ∉ seen) ∧ ∀ y ∈ nbrs, y ∈ seen ++ new := by
  intro nbrs
  induction nbrs with
  | nil =>
    intro seen q
    exact ⟨[], by simp [stepNbrs_nil], List.nodup_nil, by simp, by simp⟩
  | cons n rest ih =>
    intro seen q
    by_cases hn : n ∈ seen
    · obtain ⟨new, h1, h2, h3, h4⟩ := ih seen q
      rw [stepNbrs_cons, if_pos hn]
      refine ⟨new, h1, h2,
        fun x hx => ⟨List.mem_cons_of_mem n (h3 x hx).1, (h3 x hx).2⟩,
        fun y hy => ?_⟩
      rcases List.mem_cons.mp hy with rfl | hy
      · exact List.mem_append_left _ hn
      · exact h4 y hy
    · obtain ⟨new, h1, h2, h3, h4⟩ := ih (seen ++ [n]) (q ++ [n])
      rw [stepNbrs_cons, if_neg hn]
      refine ⟨n :: new, ?_, ?_, ?_, ?_⟩
      · rw [h1, List.append_cons seen n new, List.append_cons q n new]
      · exact List.nodup_cons.mpr
          ⟨fun hmem => ((h3 n hmem).2 (List.mem_append_right _ (List.mem_singleton.mpr rfl))),
           h2⟩
      · intro x hx
        rcases List.mem_cons.mp hx with rfl | hx
        · exact ⟨List.mem_cons_self x rest, hn⟩
        · obtain ⟨ha, hb⟩ := h3 x hx
          exact ⟨List.mem_cons_of_mem n ha,
            fun hs => hb (List.mem_append_left _ hs)⟩
      · intro y hy
        rcases List.mem_cons.mp hy with rfl | hy
        · exact List.mem_append_right _ (List.mem_cons_self y new)
        · have := h4 y hy
          rcases List.mem_append.mp this with hys | hyn
          · rcases List.mem_append.mp hys with hys | hys
            · exact List.mem_append_left _ hys
            · exact List.mem_append_right _
                ((List.mem_singleton.mp hys) ▸ List.mem_cons_self n new)
          · exact List.mem_append_right _ (List.mem_cons_of_mem n hyn)

theorem adjOf_subset_nodes (g : Graph) (x y : FPath) (hy : y ∈ adjOf g x) :
    y ∈ graphNodes g := by
  unfold adjOf at hy
  cases hl : g.lookup x with
  | none => rw [hl] at hy; simp at hy
  | some l =>
    rw [hl] at hy
    simp only [Option.getD_some] at hy
    have hx : (x, l) ∈ g := by
      obtain ⟨l₁, l₂, heq, -⟩ := List.lookup_eq_some_iff.mp hl
      rw [heq]
      exact List.mem_append_right _ (List.mem_cons_self _ _)
    unfold graphNodes
    exact List.mem_append_right _ (List.mem_flatMap.mpr ⟨(x, l), hx, hy⟩)

theorem bfsAux_isSome (g : Graph) : ∀ (fuel : Nat) (seen q : List FPath),
    seen.Nodup →
    q.length + ((graphNodes g).toFinset \ seen.toFinset).card ≤ fuel →
    ∃ r, bfsAux g fuel seen q = some r := by
  intro fuel
  induction fuel with
  | zero =>
    intro seen q hnd hle
    cases q with
    | nil => exact ⟨seen, rfl⟩
    | cons c rest => simp at hle
  | succ n ih =>
    intro seen q hnd hle
    cases q with
    | nil => exact ⟨seen, rfl⟩
    | cons cur rest =>
      obtain ⟨new, h1, h2, h3, h4⟩ := stepNbrs_spec (adjOf g cur) seen rest
      have heq : bfsAux g (n + 1) seen (cur :: rest) =
          bfsAux g n (seen ++ new) (rest ++ new) := by
        show bfsAux g n (stepNbrs (adjOf g cur) seen rest).1
          (stepNbrs (adjOf g cur) seen rest).2 = _
        rw [h1]
      rw [heq]
      apply ih
      · exact List.nodup_append.mpr
          ⟨hnd, h2, fun x hx hx' => (h3 x hx').2 hx⟩
      · have hsubnew : new.toFinset ⊆ (graphNodes g).toFinset \ seen.toFinset := by
          intro x hx
          rw [List.mem_toFinset] at hx
          rw [Finset.mem_sdiff, List.mem_toFinset, List.mem_toFinset]
          exact ⟨adjOf_subset_nodes g cur x (h3 x hx).1, (h3 x hx).2⟩
        have hcardnew : new.toFinset.card = new.length :=
          List.toFinset_card_of_nodup h2
        have hcardle : new.toFinset.card ≤
            ((graphNodes g).toFinset \ seen.toFinset).card :=
          Finset.card_le_card hsubnew
        have hsdiff : (graphNodes g).toFinset \ (seen ++ new).toFinset =
            ((graphNodes g).toFinset \ seen.toFinset) \ new.toFinset := by
          ext x
          simp only [Finset.mem_sdiff, List.toFinset_append, Finset.mem_union]
          tauto
        have hcard : (((graphNodes g).toFinset \ seen.toFinset) \ new.toFinset).card =
            ((graphNodes g).toFinset \ seen.toFinset).card - new.toFinset.card :=
          Finset.card_sdiff hsubnew
        rw [hsdiff, hcard, List.length_append, hcardnew]
        simp only [List.length_cons] at hle
        omega

theorem bfsAux_closed (g : Graph) : ∀ (fuel : Nat) (seen q r : List FPath),
    bfsAux g fuel seen q = some r →
    (∀ x ∈ seen, x ∈ q ∨ ∀ y ∈ adjOf g x, y ∈ seen) →
    seen ⊆ r ∧ ∀ x ∈ r, ∀ y ∈ adjOf g x, y ∈ r := by
  intro fuel
  induction fuel with
  | zero =>
    intro seen q r hres hinv
    cases q with
    | nil =>
      have : seen = r := Option.some.inj hres
      subst this
      refine ⟨fun x hx => hx, fun x hx y hy => ?_⟩
      rcases hinv x hx with hq | hcl
      · simp at hq
      · exact hcl y hy
    | cons c rest => simp [bfsAux] at hres
  | succ n ih =>
    intro seen q r hres hinv
    cases q with
    | nil =>
      have : seen = r := Option.some.inj hres
      subst this
      refine ⟨fun x hx => hx, fun x hx y hy => ?_⟩
      rcases hinv x hx with hq | hcl
      · simp at hq
      · exact hcl y hy
    | cons cur rest =>
      obtain ⟨new, h1, h2, h3, h4⟩ := stepNbrs_spec (adjOf g cur) seen rest
      have hres' : bfsAux g n (seen ++ new) (rest ++ new) = some r := by
        have heq : bfsAux g (n + 1) seen (cur :: rest) =
            bfsAux g n (seen ++ new) (rest ++ new) := by
          show bfsAux g n (stepNbrs (adjOf g cur) seen rest).1
            (stepNbrs (adjOf g cur) seen rest).2 = _
          rw [h1]
        rw [heq] at hres
        exact hres
      have hinv' : ∀ x ∈ seen ++ new,
          x ∈ rest ++ new ∨ ∀ y ∈ adjOf g x, y ∈ seen ++ new := by
        intro x hx
        rcases List.mem_append.mp hx with hx | hx
        · rcases hinv x hx with hq | hcl
          · rcases List.mem_cons.mp hq with rfl | hq
            · right; exact h4
            · left; exact List.mem_append_left _ hq
          · right; exact fun y hy => List.mem_append_left _ (hcl y hy)
        · left; exact List.mem_append_right _ hx
      obtain ⟨hsub, hcl⟩ := ih (seen ++ new) (rest ++ new) r hres' hinv'
      exact ⟨fun x hx => hsub (List.mem_append_left _ hx), hcl⟩

theorem seed_foldl_inv (fs : FS) : ∀ (roots : List FPath) (s q : List FPath),
    s.Nodup → (∀ x ∈ s, x ∈ q) →
    (roots.foldl (seedStep fs) (s, q)).1.Nodup ∧
      ∀ x ∈ (roots.foldl (seedStep fs) (s, q)).1,
        x ∈ (roots.foldl (seedStep fs) (s, q)).2 := by
  intro roots
  induction roots with
  | nil => intro s q h1 h2; exact ⟨h1, h2⟩
  | cons r rest ih =>
    intro s q h1 h2
    rw [List.foldl_cons]
    by_cases he : fsExists fs r
    · by_cases hr : r ∈ s
      · have hstep : seedStep fs (s, q) r = (s, q ++ [r]) := by
          simp [seedStep, he, hr]
        rw [hstep]
        exact ih s (q ++ [r]) h1 (fun x hx => List.mem_append_left _ (h2 x hx))
      · have hstep : seedStep fs (s, q) r = (s ++ [r], q ++ [r]) := by
          simp [seedStep, he, hr]
        rw [hstep]
        refine ih (s ++ [r]) (q ++ [r]) ?_ ?_
        · exact List.nodup_append.mpr
            ⟨h1, List.nodup_singleton r,
             fun x hx hx' => hr ((List.mem_singleton.mp hx') ▸ hx)⟩
        · intro x hx
          rcases List.mem_append.mp hx with hx | hx
          · exact List.mem_append_left _ (h2 x hx)
          · exact List.mem_append_right _ hx
    · have hstep : seedStep fs (s, q) r = (s, q) := by
        simp [seedStep, he]
      rw [hstep]
      exact ih s q h1 h2

theorem seed_foldl_mem_mono (fs : FS) : ∀ (roots : List FPath) (s q : List FPath)
    (x : FPath), x ∈ s → x ∈ (roots.foldl (seedStep fs) (s, q)).1 := by
  intro roots
  induction roots with
  | nil => intro s q x hx; exact hx
  | cons r rest ih =>
    intro s q x hx
    rw [List.foldl_cons]
    by_cases he : fsExists fs r
    · by_cases hr : r ∈ s
      · have hstep : seedStep fs (s, q) r = (s, q ++ [r]) := by
          simp [seedStep, he, hr]
        rw [hstep]; exact ih s _ x hx
      · have hstep : seedStep fs (s, q) r = (s ++ [r], q ++ [r]) := by
          simp [seedStep, he, hr]
        rw [hstep]; exact ih _ _ x (List.mem_append_left _ hx)
    · have hstep : seedStep fs (s, q) r = (s, q) := by
        simp [seedStep, he]
      rw [hstep]; exact ih s q x hx

theorem seed_foldl_mem_root (fs : FS) : ∀ (roots : List FPath) (s q : List FPath)
    (x : FPath), x ∈ roots → fsExists fs x = true →
    x ∈ (roots.foldl (seedStep fs) (s, q)).1 := by
  intro roots
  induction roots with
  | nil => intro s q x hx; simp at hx
  | cons r rest ih =>
    intro s q x hx he
    rw [List.foldl_cons]
    rcases List.mem_cons.mp hx with rfl | hx
    · by_cases hr : x ∈ s
      · have hstep : seedStep fs (s, q) x = (s, q ++ [x]) := by
          simp [seedStep, he, hr]
        rw [hstep]
        exact seed_foldl_mem_mono fs rest s _ x hr
      · have hstep : seedStep fs (s, q) x = (s ++ [x], q ++ [x]) := by
          simp [seedStep, he, hr]
        rw [hstep]
        exact seed_foldl_mem_mono fs rest _ _ x
          (List.mem_append_right _ (List.mem_singleton.mpr rfl))
    · cases seedStep fs (s, q) r with
      | mk s' q' => exact ih s' q' x hx he

theorem reachable_from_eq_some (fs : FS) (g : Graph) (roots : List FPath) :
    bfsAux g ((initSeed fs roots).2.length + (graphNodes g).length)
      (initSeed fs roots).1 (initSeed fs roots).2 =
      some (reachable_from fs g roots) := by
  obtain ⟨hnd, -⟩ := seed_foldl_inv fs roots [] [] List.nodup_nil (by simp)
  have harith : (initSeed fs roots).2.length +
      ((graphNodes g).toFinset \ (initSeed fs roots).1.toFinset).card ≤
      (initSeed fs roots).2.length + (graphNodes g).length := by
    have h1 : ((graphNodes g).toFinset \ (initSeed fs roots).1.toFinset).card ≤
        (graphNodes g).toFinset.card :=
      Finset.card_le_card Finset.sdiff_subset
    have h2 : (graphNodes g).toFinset.card ≤ (graphNodes g).length :=
      List.toFinset_card_le _
    omega
  obtain ⟨r, hr⟩ := bfsAux_isSome g
    ((initSeed fs roots).2.length + (graphNodes g).length)
    (initSeed fs roots).1 (initSeed fs roots).2 hnd harith
  have hval : reachable_from fs g roots = r := by
    simp only [reachable_from]
    rw [hr]
    rfl
  rw [hval]
  exact hr

/-- C7: for every finite graph and root set, the breadth-first traversal
terminates (the fuelled loop returns its answer rather than exhausting), the
reachable set contains every existing root, and it is closed under following
any chain of references; in particular every member of a reference cycle is
reachable as soon as any one of its members is. -/
theorem claim_C7_cycle_safe_reachability :
    ∀ (fs : FS) (g : Graph) (roots : List FPath),
      (bfsAux g ((initSeed fs roots).2.length + (graphNodes g).length)
        (initSeed fs roots).1 (initSeed fs roots).2 =
        some (reachable_from fs g roots))
      ∧ (∀ r ∈ roots, fsExists fs r = true → r ∈ reachable_from fs g roots)
      ∧ (∀ x y : FPath, x ∈ reachable_from fs g roots →
          Relation.ReflTransGen (fun a b => b ∈ adjOf g a) x y →
          y ∈ reachable_from fs g roots) := by
  intro fs g roots
  have hsome := reachable_from_eq_some fs g roots
  obtain ⟨-, hseen_q⟩ := seed_foldl_inv fs roots [] [] List.nodup_nil (by simp)
  have hinv : ∀ x ∈ (initSeed fs roots).1,
      x ∈ (initSeed fs roots).2 ∨ ∀ y ∈ adjOf g x, y ∈ (initSeed fs roots).1 :=
    fun x hx => Or.inl (hseen_q x hx)
  obtain ⟨hsub, hcl⟩ := bfsAux_closed g _ _ _ _ hsome hinv
  refine ⟨hsome, ?_, ?_⟩
  · intro r hr he
    exact hsub (seed_foldl_mem_root fs roots [] [] r hr he)
  · intro x y hx hpath
    induction hpath with
    | refl => exact hx
    | tail hab hbc ih => exact hcl _ ih _ hbc

/-- C7 witness: on the graph with a self-loop at node a and a two-cycle
between a and b, rooted at a, both cycle members are in the reachable set. -/
theorem claim_C7_witness :
    ["a"] ∈ reachable_from ⟨[["a"], ["b"]], [], []⟩
      [(["a"], [["a"], ["b"]]), (["b"], [["a"]])] [["a"]]
    ∧ ["b"] ∈ reachable_from ⟨[["a"], ["b"]], [], []⟩
      [(["a"], [["a"], ["b"]]), (["b"], [["a"]])] [["a"]] := by
  have h := claim_C7_cycle_safe_reachability ⟨[["a"], ["b"]], [], []⟩
    [(["a"], [["a"], ["b"]]), (["b"], [["a"]])] [["a"]]
  have ha : ["a"] ∈ reachable_from ⟨[["a"], ["b"]], [], []⟩
      [(["a"], [["a"], ["b"]]), (["b"], [["a"]])] [["a"]] :=
    h.2.1 ["a"] (by decide) (by decide)
  exact ⟨ha, h.2.2 ["a"] ["b"] ha (Relation.ReflTransGen.single (by decide))⟩

/-! ## C8: per-file error recovery in reference extraction -/

/-- C8: reference extraction is total at the per-file boundary: an unreadable
file contributes an empty edge list; the collected node set does not depend
on which files are readable; and a Python module whose AST parse fails is
processed by the regex fallback on the same text. -/
theorem claim_C8_extraction_error_recovery :
    ∀ (fs : FS) (ex : Extractors) (path root : FPath),
      (readText fs path = none → extract_edges_for_file fs ex path root = [])
      ∧ (∀ (fi di : List FPath) (t t' : List (FPath × String))
          (sd : List FPath) (ae : List String) (ih : Bool),
          collect_files ⟨fi, di, t⟩ sd ae ih = collect_files ⟨fi, di, t'⟩ sd ae ih)
      ∧ (∀ text : String, readText fs path = some text →
          lowerStr (pathSuffix path) = ".py" → ex.pyAst text = none →
          extract_edges_for_file fs ex path root =
            py_regex_edges fs ex path root text) := by
  intro fs ex path root
  refine ⟨?_, ?_, ?_⟩
  · intro h
    simp only [extract_edges_for_file, h]
  · intro fi di t t' sd ae ih
    rfl
  · intro text hread hext hast
    simp only [extract_edges_for_file, hread, hext]
    simp only [if_true, hast]
    rw [if_neg (by decide)]

/-- Extractor oracle for the C8 witness: the AST always fails to parse and
the regex fallback captures one relative import. -/
def exPyFallback : Extractors :=
  ⟨fun _ => [], fun _ => [], fun _ => [], fun _ => some [],
   fun _ => none, fun _ => [".util"]⟩

/-- C8 witness: the theorem applied to an unreadable Python file (no edges)
and to a readable Python file whose AST parse fails (regex fallback edges). -/
theorem claim_C8_witness :
    extract_edges_for_file ⟨[["proj", "m.py"], ["proj", "util.py"]], [[], ["proj"]], []⟩
      exPyFallback ["proj", "m.py"] ["proj"] = []
    ∧ extract_edges_for_file
        ⟨[["proj", "m.py"], ["proj", "util.py"]], [[], ["proj"]],
         [(["proj", "m.py"], "from .util import x ///")]⟩
        exPyFallback ["proj", "m.py"] ["proj"] =
      py_regex_edges
        ⟨[["proj", "m.py"], ["proj", "util.py"]], [[], ["proj"]],
         [(["proj", "m.py"], "from .util import x ///")]⟩
        exPyFallback ["proj", "m.py"] ["proj"] "from .util import x ///" := by
  constructor
  · exact (claim_C8_extraction_error_recovery
      ⟨[["proj", "m.py"], ["proj", "util.py"]], [[], ["proj"]], []⟩
      exPyFallback ["proj", "m.py"] ["proj"]).1 (by decide)
  · exact (claim_C8_extraction_error_recovery
      ⟨[["proj", "m.py"], ["proj", "util.py"]], [[], ["proj"]],
       [(["proj", "m.py"], "from .util import x ///")]⟩
      exPyFallback ["proj", "m.py"] ["proj"]).2.2 "from .util import x ///"
      (by decide) (by decide) rfl

/-! ## C3: the reachable set against the discovered set -/

/-- A filesystem where an explicit root names an existing file that the
extension allowlist excludes from discovery. -/
def fsC3 : FS :=
  ⟨[["proj", "a.html"], ["proj", "b.json"]], [[], ["proj"]],
   [(["proj", "a.html"], "")]⟩

/-- Trivial extractor oracles: no captures anywhere, all parses succeed. -/
def exTrivial : Extractors :=
  ⟨fun _ => [], fun _ => [], fun _ => [], fun _ => some [],
   fun _ => some [], fun _ => []⟩

/-- C3 counterexample: with allowlist restricted to .html and an explicit
root naming the existing b.json, the reachable set contains b.json although
the discovered file set does not, so the reachable set is not contained in
the discovered set and the two sets do not partition it as claimed. -/
theorem claim_C3_counterexample :
    ["proj", "b.json"] ∈ (compute_results fsC3 exTrivial ["proj"] [["proj"]]
      [".html"] (some ["b.json"]) false).2.1
    ∧ ["proj", "b.json"] ∉ (compute_results fsC3 exTrivial ["proj"] [["proj"]]
      [".html"] (some ["b.json"]) false).1 := by
  decide

/-- C3 amended: restricted to the discovered file set the partition holds:
every discovered file is in exactly one of the reachable set and the
other-unused list, and the other-unused list is exactly the discovered files
outside the reachable set; the reachable set itself may contain paths outside
the discovered set (existing explicit roots and resolved reference targets
are accepted regardless of discovery). -/
theorem claim_C3_amended_partition :
    ∀ (fs : FS) (ex : Extractors) (root : FPath) (scans : List FPath)
      (allowed : List String) (rcli : Option (List String)) (hid : Bool),
      (∀ f ∈ (compute_results fs ex root scans allowed rcli hid).1,
        (f ∈ (compute_results fs ex root scans allowed rcli hid).2.1 ∧
          f ∉ (compute_results fs ex root scans allowed rcli hid).2.2.2.2) ∨
        (f ∉ (compute_results fs ex root scans allowed rcli hid).2.1 ∧
          f ∈ (compute_results fs ex root scans allowed rcli hid).2.2.2.2))
      ∧ ∀ f, f ∈ (compute_results fs ex root scans allowed rcli hid).2.2.2.2 ↔
          f ∈ (compute_results fs ex root scans allowed rcli hid).1 ∧
          f ∉ (compute_results fs ex root scans allowed rcli hid).2.1 := by
  intro fs ex root scans allowed rcli hid
  have hother : ∀ f, f ∈ (compute_results fs ex root scans allowed rcli hid).2.2.2.2 ↔
      f ∈ (compute_results fs ex root scans allowed rcli hid).1 ∧
      f ∉ (compute_results fs ex root scans allowed rcli hid).2.1 := by
    intro f
    exact mem_other_unused root
      (compute_results fs ex root scans allowed rcli hid).1
      (compute_results fs ex root scans allowed rcli hid).2.1 scans f
  refine ⟨fun f hf => ?_, hother⟩
  by_cases hu : f ∈ (compute_results fs ex root scans allowed rcli hid).2.1
  · exact Or.inl ⟨hu, fun ho => ((hother f).mp ho).2 hu⟩
  · exact Or.inr ⟨hu, (hother f).mpr ⟨hf, hu⟩⟩

/-- C3 witness: the amended partition applied to the counterexample run, at
the one discovered file. -/
theorem claim_C3_witness :
    (["proj", "a.html"] ∈ (compute_results fsC3 exTrivial ["proj"] [["proj"]]
        [".html"] (some ["b.json"]) false).2.1 ∧
      ["proj", "a.html"] ∉ (compute_results fsC3 exTrivial ["proj"] [["proj"]]
        [".html"] (some ["b.json"]) false).2.2.2.2) ∨
    (["proj", "a.html"] ∉ (compute_results fsC3 exTrivial ["proj"] [["proj"]]
        [".html"] (some ["b.json"]) false).2.1 ∧
      ["proj", "a.html"] ∈ (compute_results fsC3 exTrivial ["proj"] [["proj"]]
        [".html"] (some ["b.json"]) false).2.2.2.2) :=
  (claim_C3_amended_partition fsC3 exTrivial ["proj"] [["proj"]]
    [".html"] (some ["b.json"]) false).1 ["proj", "a.html"] (by decide)

/-! ## C10: dotted relative imports, supporting lemmas -/

theorem strMk_toList (s : String) : String.mk s.toList = s := rfl

theorem dropWhile_dots_replicate : ∀ (k : Nat) (cs : List Char),
    (List.replicate k '.' ++ cs).dropWhile (· == '.') = cs.dropWhile (· == '.') := by
  intro k
  induction k with
  | zero => intro cs; simp
  | succ n ih =>
    intro cs
    rw [List.replicate_succ, List.cons_append,
      List.dropWhile_cons_of_pos (by decide)]
    exact ih cs

theorem replaceDots_no_dot (m : String) : '.' ∉ (replaceDots m).toList := by
  intro hmem
  have hmem' : '.' ∈ m.toList.map (fun c => if c == '.' then '/' else c) := hmem
  obtain ⟨c, -, hc⟩ := List.mem_map.mp hmem'
  by_cases hcd : (c == '.') = true
  · rw [if_pos hcd] at hc
    exact absurd hc (by decide)
  · rw [if_neg hcd] at hc
    exact hcd (by rw [hc]; decide)

theorem replaceDots_chars (m : String)
    (hm : ∀ ch ∈ m.toList, ch = '.' ∨ ch.isAlphanum = true ∨ ch = '_') :
    ∀ ch ∈ (replaceDots m).toList, ch = '/' ∨ ch.isAlphanum = true ∨ ch = '_' := by
  intro ch hch
  have hch' : ch ∈ m.toList.map (fun c => if c == '.' then '/' else c) := hch
  obtain ⟨c, hc, hceq⟩ := List.mem_map.mp hch'
  subst hceq
  by_cases hcd : (c == '.') = true
  · rw [if_pos hcd]
    exact Or.inl rfl
  · rw [if_neg hcd]
    rcases hm c hc with rfl | h | rfl
    · exact absurd (beq_self_eq_true '.') hcd
    · exact Or.inr (Or.inl h)
    · exact Or.inr (Or.inr rfl)

theorem word_ne_hash_qmark (ch : Char)
    (h : ch = '/' ∨ ch.isAlphanum = true ∨ ch = '_') : ch ≠ '#' ∧ ch ≠ '?' := by
  constructor <;> rintro rfl <;> revert h <;> decide

theorem takeWhile_of_all {α : Type} (p : α → Bool) :
    ∀ l : List α, (∀ x ∈ l, p x = true) → l.takeWhile p = l := by
  intro l
  induction l with
  | nil => intro h; rfl
  | cons a as ih =>
    intro h
    rw [List.takeWhile_cons_of_pos (h a (List.mem_cons_self a as)),
      ih (fun x hx => h x (List.mem_cons_of_mem a hx))]

theorem cutAt_eq_self (c : Char) (s : String) (h : ∀ ch ∈ s.toList, ch ≠ c) :
    cutAt c s = s := by
  unfold cutAt
  rw [takeWhile_of_all _ s.toList (fun x hx => by
    simp only [bne_iff_ne, ne_eq, decide_eq_true_eq]
    exact h x hx)]
  exact strMk_toList s

theorem mem_dropWhile_of_neg {α : Type} (p : α → Bool) :
    ∀ (l : List α) (x : α), x ∈ l → p x = false → x ∈ l.dropWhile p := by
  intro l
  induction l with
  | nil => intro x hx; simp at hx
  | cons a as ih =>
    intro x hx hpx
    by_cases hpa : p a = true
    · rw [List.dropWhile_cons_of_pos hpa]
      rcases List.mem_cons.mp hx with rfl | hx
      · rw [hpx] at hpa; cases hpa
      · exact ih x hx hpx
    · rw [List.dropWhile_cons_of_neg (by simpa using hpa)]
      exact hx

theorem mem_stripDots (s : String) (ch : Char) (hch : ch ∈ s.toList)
    (hne : ch ≠ '.') : ch ∈ (stripDots s).toList := by
  unfold stripDots
  have hpd : (ch == '.') = false := by
    simp only [beq_eq_false_iff_ne, ne_eq]
    exact hne
  show ch ∈ ((s.toList.dropWhile (· == '.')).reverse.dropWhile (· == '.')).reverse
  rw [List.mem_reverse]
  refine mem_dropWhile_of_neg (fun x => x == '.')
    (s.toList.dropWhile (fun x => x == '.')).reverse ch ?_ hpd
  rw [List.mem_reverse]
  exact mem_dropWhile_of_neg (fun x => x == '.') s.toList ch hch hpd

theorem stripDots_chars (s : String) (ch : Char)
    (hch : ch ∈ (stripDots s).toList) : ch ∈ s.toList := by
  have h1 : ch ∈ ((s.toList.dropWhile (· == '.')).reverse.dropWhile (· == '.')).reverse := hch
  rw [List.mem_reverse] at h1
  have h3 : ch ∈ (s.toList.dropWhile (· == '.')).reverse :=
    (List.dropWhile_sublist _).mem h1
  rw [List.mem_reverse] at h3
  exact (List.dropWhile_sublist _).mem h3

theorem splitCharAux_no_sep (c : Char) : ∀ (tail acc : List Char),
    (∀ x ∈ tail, x ≠ c) →
    splitCharAux c tail acc = [String.mk (acc.reverse ++ tail)] := by
  intro tail
  induction tail with
  | nil => intro acc h; simp [splitCharAux]
  | cons x xs ih =>
    intro acc h
    have hx : (x == c) = false := by
      simp only [beq_eq_false_iff_ne, ne_eq]
      exact h x (List.mem_cons_self x xs)
    rw [show splitCharAux c (x :: xs) acc = splitCharAux c xs (x :: acc) by
      simp [splitCharAux, hx]]
    rw [ih (x :: acc) (fun y hy => h y (List.mem_cons_of_mem x hy))]
    simp [List.reverse_cons, List.append_assoc]

theorem splitCharAux_mem_char (c : Char) : ∀ (cs acc : List Char) (ch : Char),
    ch ≠ c → (ch ∈ cs ∨ ch ∈ acc) →
    ∃ s ∈ splitCharAux c cs acc, ch ∈ s.toList := by
  intro cs
  induction cs with
  | nil =>
    intro acc ch hne hch
    rcases hch with h | h
    · simp at h
    · exact ⟨String.mk acc.reverse, by simp [splitCharAux],
        by simpa [List.mem_reverse] using h⟩
  | cons x xs ih =>
    intro acc ch hne hch
    by_cases hxc : (x == c) = true
    · rw [show splitCharAux c (x :: xs) acc =
          String.mk acc.reverse :: splitCharAux c xs [] by simp [splitCharAux, hxc]]
      rcases hch with h | h
      · rcases List.mem_cons.mp h with rfl | h
        · exact absurd (eq_of_beq hxc) hne
        · obtain ⟨s, hs, hchs⟩ := ih [] ch hne (Or.inl h)
          exact ⟨s, List.mem_cons_of_mem _ hs, hchs⟩
      · exact ⟨String.mk acc.reverse, List.mem_cons_self _ _,
          by simpa [List.mem_reverse] using h⟩
    · have hxf : (x == c) = false := Bool.eq_false_iff.mpr hxc
      rw [show splitCharAux c (x :: xs) acc = splitCharAux c xs (x :: acc) by
        simp [splitCharAux, hxf]]
      rcases hch with h | h
      · rcases List.mem_cons.mp h with rfl | h
        · exact ih (ch :: acc) ch hne (Or.inr (List.mem_cons_self _ _))
        · exact ih (x :: acc) ch hne (Or.inl h)
      · exact ih (x :: acc) ch hne (Or.inr (List.mem_cons_of_mem x h))

theorem splitCharAux_nodot_segs : ∀ (cs acc : List Char),
    '.' ∉ cs → '.' ∉ acc →
    ∀ s ∈ splitCharAux '/' cs acc, s ≠ ".." := by
  intro cs
  induction cs with
  | nil =>
    intro acc h1 h2 s hs
    rw [show splitCharAux '/' [] acc = [String.mk acc.reverse] from rfl] at hs
    rcases List.mem_singleton.mp hs with rfl
    intro heq
    have hl : acc.reverse = "..".toList := congrArg String.toList heq
    have hl2 : acc.reverse = ['.', '.'] := hl.trans rfl
    exact h2 (by rw [← List.mem_reverse, hl2]; decide)
  | cons x xs ih =>
    intro acc h1 h2 s hs
    have hx : x ≠ '.' := fun he => h1 (he ▸ List.mem_cons_self x xs)
    by_cases hxc : (x == '/') = true
    · rw [show splitCharAux '/' (x :: xs) acc =
          String.mk acc.reverse :: splitCharAux '/' xs [] by
        simp [splitCharAux, hxc]] at hs
      rcases List.mem_cons.mp hs with rfl | hs
      · intro heq
        have hl : acc.reverse = "..".toList := congrArg String.toList heq
        have hl2 : acc.reverse = ['.', '.'] := hl.trans rfl
        exact h2 (by rw [← List.mem_reverse, hl2]; decide)
      · exact ih [] (fun hd => h1 (List.mem_cons_of_mem x hd)) (by simp) s hs
    · have hxf : (x == '/') = false := Bool.eq_false_iff.mpr hxc
      rw [show splitCharAux '/' (x :: xs) acc = splitCharAux '/' xs (x :: acc) by
        simp [splitCharAux, hxf]] at hs
      refine ih (x :: acc) (fun hd => h1 (List.mem_cons_of_mem x hd)) ?_ s hs
      intro hd
      rcases List.mem_cons.mp hd with he | hd
      · exact hx he.symm
      · exact h2 hd

theorem splitCharAux_py_segs : ∀ (cs acc : List Char),
    '.' ∉ cs → '.' ∉ acc →
    (∀ s ∈ splitCharAux '/' (cs ++ ['.', 'p', 'y']) acc, s ≠ "..") ∧
    ∃ s ∈ splitCharAux '/' (cs ++ ['.', 'p', 'y']) acc, ¬(s = "" ∨ s = ".") := by
  intro cs
  induction cs with
  | nil =>
    intro acc h1 h2
    rw [List.nil_append,
      splitCharAux_no_sep '/' ['.', 'p', 'y'] acc (by decide)]
    constructor
    · intro s hs
      rcases List.mem_singleton.mp hs with rfl
      intro heq
      have hl : acc.reverse ++ ['.', 'p', 'y'] = "..".toList :=
        congrArg String.toList heq
      have hl2 : acc.reverse ++ ['.', 'p', 'y'] = ['.', '.'] := hl.trans rfl
      have := congrArg List.length hl2
      simp [List.length_append] at this
    · refine ⟨String.mk (acc.reverse ++ ['.', 'p', 'y']),
        List.mem_singleton.mpr rfl, ?_⟩
      rintro (heq | heq)
      · have hl : acc.reverse ++ ['.', 'p', 'y'] = "".toList :=
          congrArg String.toList heq
        have hl2 : acc.reverse ++ ['.', 'p', 'y'] = [] := hl.trans rfl
        have := congrArg List.length hl2
        simp [List.length_append] at this
      · have hl : acc.reverse ++ ['.', 'p', 'y'] = ".".toList :=
          congrArg String.toList heq
        have hl2 : acc.reverse ++ ['.', 'p', 'y'] = ['.'] := hl.trans rfl
        have := congrArg List.length hl2
        simp [List.length_append] at this
  | cons x xs ih =>
    intro acc h1 h2
    have hx : x ≠ '.' := fun he => h1 (he ▸ List.mem_cons_self x xs)
    rw [List.cons_append]
    by_cases hxc : (x == '/') = true
    · rw [show splitCharAux '/' (x :: (xs ++ ['.', 'p', 'y'])) acc =
          String.mk acc.reverse :: splitCharAux '/' (xs ++ ['.', 'p', 'y']) [] by
        simp [splitCharAux, hxc]]
      obtain ⟨hA, s0, hs0, hreal⟩ :=
        ih [] (fun hd => h1 (List.mem_cons_of_mem x hd)) (by simp)
      constructor
      · intro s hs
        rcases List.mem_cons.mp hs with rfl | hs
        · intro heq
          have hl : acc.reverse = "..".toList := congrArg String.toList heq
          have hl2 : acc.reverse = ['.', '.'] := hl.trans rfl
          exact h2 (by rw [← List.mem_reverse, hl2]; decide)
        · exact hA s hs
      · exact ⟨s0, List.mem_cons_of_mem _ hs0, hreal⟩
    · have hxf : (x == '/') = false := Bool.eq_false_iff.mpr hxc
      rw [show splitCharAux '/' (x :: (xs ++ ['.', 'p', 'y'])) acc =
          splitCharAux '/' (xs ++ ['.', 'p', 'y']) (x :: acc) by
        simp [splitCharAux, hxf]]
      refine ih (x :: acc) (fun hd => h1 (List.mem_cons_of_mem x hd)) ?_
      intro hd
      rcases List.mem_cons.mp hd with he | hd
      · exact hx he.symm
      · exact h2 hd

theorem foldl_normStep_clean : ∀ (p acc : List String),
    (∀ s ∈ p, ¬(s = "" ∨ s = "." ∨ s = "..")) →
    p.foldl normStep acc = acc ++ p := by
  intro p
  induction p with
  | nil => intro acc h; simp
  | cons s ps ih =>
    intro acc h
    have hs := h s (List.mem_cons_self s ps)
    push_neg at hs
    rw [List.foldl_cons]
    rw [show normStep acc s = acc ++ [s] by
      unfold normStep
      rw [if_neg (by push_neg; exact ⟨hs.1, hs.2.1⟩), if_neg hs.2.2]]
    rw [ih (acc ++ [s]) (fun u hu => h u (List.mem_cons_of_mem s hu))]
    simp [List.append_assoc]

theorem foldl_normStep_no_dotdot : ∀ (segs acc : List String),
    (∀ s ∈ segs, s ≠ "..") →
    segs.foldl normStep acc =
      acc ++ segs.filter (fun s => !(s == "" || s == ".")) := by
  intro segs
  induction segs with
  | nil => intro acc h; simp
  | cons s ss ih =>
    intro acc h
    rw [List.foldl_cons]
    by_cases hsp : s = "" ∨ s = "."
    · rw [show normStep acc s = acc by unfold normStep; rw [if_pos hsp]]
      rw [ih acc (fun u hu => h u (List.mem_cons_of_mem s hu))]
      have hf : (!(s == "" || s == ".")) = false := by
        rcases hsp with rfl | rfl <;> decide
      simp only [List.filter_cons]
      rw [if_neg (by simpa using hf)]
    · have hne : s ≠ ".." := h s (List.mem_cons_self s ss)
      rw [show normStep acc s = acc ++ [s] by
        unfold normStep; rw [if_neg hsp, if_neg hne]]
      rw [ih (acc ++ [s]) (fun u hu => h u (List.mem_cons_of_mem s hu))]
      have hps : (!(s == "" || s == ".")) = true := by
        push_neg at hsp
        simp [hsp.1, hsp.2]
      simp only [List.filter_cons]
      rw [if_pos (by simpa using hps)]
      simp [List.append_assoc]

theorem normSegs_clean_append (parent segs : List String)
    (hpar : ∀ s ∈ parent, ¬(s = "" ∨ s = "." ∨ s = ".."))
    (hsegs : ∀ s ∈ segs, s ≠ "..") :
    normSegs (parent ++ segs) =
      parent ++ segs.filter (fun s => !(s == "" || s == ".")) := by
  unfold normSegs
  rw [List.foldl_append, foldl_normStep_clean parent [] hpar, List.nil_append,
    foldl_normStep_no_dotdot segs parent hsegs]

theorem try_extensions_prefix (fs : FS) (parent cs : List String) (t : FPath)
    (hne : cs ≠ []) (h : try_extensions fs (parent ++ cs) = some t) :
    ∃ rest, t = parent ++ rest := by
  unfold try_extensions at h
  by_cases hf : isFile fs (parent ++ cs)
  · rw [if_pos hf] at h
    exact ⟨cs, (Option.some.inj h).symm⟩
  · rw [if_neg hf] at h
    cases hfind : (COMMON_EXTS.map (addSuffix (parent ++ cs))).find? (isFile fs) with
    | some p =>
      simp only [hfind] at h
      have hp : p = t := Option.some.inj h
      have hmem := List.mem_of_find?_eq_some hfind
      obtain ⟨e, -, he⟩ := List.mem_map.mp hmem
      subst hp
      rw [← he]
      unfold addSuffix
      rw [List.dropLast_append_of_ne_nil parent hne]
      exact ⟨cs.dropLast ++ [lastSeg (parent ++ cs) ++ e],
        by rw [List.append_assoc]⟩
    | none =>
      simp only [hfind] at h
      by_cases hd : isDir fs (parent ++ cs)
      · rw [if_pos hd] at h
        have hmem := List.mem_of_find?_eq_some h
        obtain ⟨e, -, he⟩ := List.mem_map.mp hmem
        rw [← he]
        exact ⟨cs ++ ["index" ++ e], by rw [List.append_assoc]⟩
      · rw [if_neg hd] at h
        cases h

theorem resolve_relative_plain (fs : FS) (base : FPath) (rel : String)
    (root : FPath)
    (hq : ∀ ch ∈ rel.toList, ch ≠ '#' ∧ ch ≠ '?')
    (hsl : strStarts rel "/" = false) :
    resolve_relative fs base rel root =
      try_extensions fs (normSegs (base.dropLast ++ splitOnChar '/' rel)) := by
  simp only [resolve_relative]
  rw [cutAt_eq_self '#' rel (fun ch hch => (hq ch hch).1)]
  rw [cutAt_eq_self '?' rel (fun ch hch => (hq ch hch).2)]
  rw [if_neg (by simp [hsl])]

theorem splitOnChar_dotslash (r : String) :
    splitOnChar '/' ("./" ++ r) = "." :: splitCharAux '/' r.toList [] := rfl

theorem splitOnChar_dotslash_py (r : String) :
    splitOnChar '/' (("./" ++ r) ++ ".py") =
      "." :: splitCharAux '/' (r.toList ++ ['.', 'p', 'y']) [] := rfl

theorem strStarts_dotslash (s : String) : strStarts ("./" ++ s) "/" = false := rfl

theorem strStarts_dotslash_py (s : String) :
    strStarts (("./" ++ s) ++ ".py") "/" = false := rfl

theorem word_ne_slash (ch : Char) (h : ch.isAlphanum = true ∨ ch = '_') :
    ch ≠ '/' := by
  rintro rfl
  revert h
  decide

theorem resolve_segs_no_ascend (fs : FS) (path root : FPath) (rel : String)
    (t : FPath)
    (hpar : ∀ s ∈ path.dropLast, ¬(s = "" ∨ s = "." ∨ s = ".."))
    (hq : ∀ ch ∈ rel.toList, ch ≠ '#' ∧ ch ≠ '?')
    (hsl : strStarts rel "/" = false)
    (hdd : ∀ s ∈ splitOnChar '/' rel, s ≠ "..")
    (hex : ∃ s ∈ splitOnChar '/' rel, ¬(s = "" ∨ s = "."))
    (h : resolve_relative fs path rel root = some t) :
    ∃ rest, t = path.dropLast ++ rest := by
  rw [resolve_relative_plain fs path rel root hq hsl] at h
  rw [normSegs_clean_append path.dropLast (splitOnChar '/' rel) hpar hdd] at h
  obtain ⟨s0, hs0m, hreal⟩ := hex
  have hfil : s0 ∈ (splitOnChar '/' rel).filter (fun s => !(s == "" || s == ".")) := by
    rw [List.mem_filter]
    refine ⟨hs0m, ?_⟩
    push_neg at hreal
    simp [hreal.1, hreal.2]
  exact try_extensions_prefix fs path.dropLast _ t (List.ne_nil_of_mem hfil) h

/-- C10: in the Python import extractor the number of leading dots of a
relative import never matters beyond being nonzero: the AST branch resolves
any level to the same candidate as a single-dot import, the regex fallback
strips all leading dots so k dots resolve like one, and the resolved target
always stays below the importing file's own directory (the extra levels never
ascend to a parent directory). -/
theorem claim_C10_relative_import_levels :
    (∀ (fs : FS) (path root : FPath) (k1 k2 : Nat) (m : String),
      k1 ≠ 0 → k2 ≠ 0 →
      py_ast_target fs path root ⟨k1, some m⟩ =
        py_ast_target fs path root ⟨k2, some m⟩)
    ∧ (∀ (fs : FS) (path root : FPath) (k : Nat) (s : String), k ≠ 0 →
      py_fallback_target fs path root (String.mk (List.replicate k '.') ++ s) =
        py_fallback_target fs path root ("." ++ s))
    ∧ (∀ (fs : FS) (path root : FPath) (lvl : Nat) (m : String) (t : FPath),
      (∀ s ∈ path.dropLast, ¬(s = "" ∨ s = "." ∨ s = "..")) →
      (∀ ch ∈ m.toList, ch = '.' ∨ ch.isAlphanum = true ∨ ch = '_') →
      (∃ ch ∈ m.toList, ch ≠ '.') →
      py_ast_target fs path root ⟨lvl, some m⟩ = some t →
      ∃ rest, t = path.dropLast ++ rest) := by
  refine ⟨?_, ?_, ?_⟩
  · intro fs path root k1 k2 m h1 h2
    by_cases hm0 : m = ""
    · simp [py_ast_target, hm0]
    · simp [py_ast_target, h1, h2, hm0]
  · intro fs path root k s hk
    have hstrip : stripDots (String.mk (List.replicate k '.') ++ s) =
        stripDots ("." ++ s) := by
      unfold stripDots
      rw [show (String.mk (List.replicate k '.') ++ s).toList =
          List.replicate k '.' ++ s.toList from rfl]
      rw [show ("." ++ s).toList = List.replicate 1 '.' ++ s.toList from rfl]
      rw [dropWhile_dots_replicate k s.toList, dropWhile_dots_replicate 1 s.toList]
    unfold py_fallback_target
    rw [hstrip]
  · intro fs path root lvl m t hpar hm hw h
    have hnodot := replaceDots_no_dot m
    have hchars := replaceDots_chars m hm
    simp only [py_ast_target] at h
    by_cases hg : lvl ≠ 0 ∧ m ≠ ""
    · rw [if_pos hg] at h
      have hqB : ∀ ch ∈ ("./" ++ replaceDots m).toList, ch ≠ '#' ∧ ch ≠ '?' := by
        intro ch hch
        rw [show ("./" ++ replaceDots m).toList =
            '.' :: '/' :: (replaceDots m).toList from rfl] at hch
        rcases List.mem_cons.mp hch with rfl | hch
        · exact ⟨by decide, by decide⟩
        rcases List.mem_cons.mp hch with rfl | hch
        · exact ⟨by decide, by decide⟩
        exact word_ne_hash_qmark ch (hchars ch hch)
      have hqA : ∀ ch ∈ (("./" ++ replaceDots m) ++ ".py").toList,
          ch ≠ '#' ∧ ch ≠ '?' := by
        intro ch hch
        rw [show (("./" ++ replaceDots m) ++ ".py").toList =
            '.' :: '/' :: ((replaceDots m).toList ++ ['.', 'p', 'y']) from rfl] at hch
        rcases List.mem_cons.mp hch with rfl | hch
        · exact ⟨by decide, by decide⟩
        rcases List.mem_cons.mp hch with rfl | hch
        · exact ⟨by decide, by decide⟩
        rcases List.mem_append.mp hch with hch | hch
        · exact word_ne_hash_qmark ch (hchars ch hch)
        · rcases List.mem_cons.mp hch with rfl | hch
          · exact ⟨by decide, by decide⟩
          rcases List.mem_cons.mp hch with rfl | hch
          · exact ⟨by decide, by decide⟩
          rcases List.mem_cons.mp hch with rfl | hch
          · exact ⟨by decide, by decide⟩
          exact absurd hch (List.not_mem_nil ch)
      have hpy := splitCharAux_py_segs (replaceDots m).toList [] hnodot (by simp)
      have hddA : ∀ s ∈ splitOnChar '/' (("./" ++ replaceDots m) ++ ".py"),
          s ≠ ".." := by
        rw [splitOnChar_dotslash_py]
        intro s hs
        rcases List.mem_cons.mp hs with rfl | hs
        · decide
        · exact hpy.1 s hs
      have hexA : ∃ s ∈ splitOnChar '/' (("./" ++ replaceDots m) ++ ".py"),
          ¬(s = "" ∨ s = ".") := by
        rw [splitOnChar_dotslash_py]
        obtain ⟨s0, hs0, hr⟩ := hpy.2
        exact ⟨s0, List.mem_cons_of_mem _ hs0, hr⟩
      have hddB : ∀ s ∈ splitOnChar '/' ("./" ++ replaceDots m), s ≠ ".." := by
        rw [splitOnChar_dotslash]
        intro s hs
        rcases List.mem_cons.mp hs with rfl | hs
        · decide
        · exact splitCharAux_nodot_segs (replaceDots m).toList [] hnodot
            (by simp) s hs
      have hexB : ∃ s ∈ splitOnChar '/' ("./" ++ replaceDots m),
          ¬(s = "" ∨ s = ".") := by
        rw [splitOnChar_dotslash]
        obtain ⟨ch, hchm, hchne⟩ := hw
        have hchrd : ch ∈ (replaceDots m).toList :=
          List.mem_map.mpr ⟨ch, hchm, by rw [if_neg (by simpa using hchne)]⟩
        have hslash : ch ≠ '/' := by
          rcases hm ch hchm with rfl | hh | rfl
          · exact absurd rfl hchne
          · exact word_ne_slash ch (Or.inl hh)
          · exact word_ne_slash '_' (Or.inr rfl)
        obtain ⟨s0, hs0, hchs⟩ :=
          splitCharAux_mem_char '/' (replaceDots m).toList [] ch hslash
            (Or.inl hchrd)
        refine ⟨s0, List.mem_cons_of_mem _ hs0, ?_⟩
        rintro (rfl | rfl)
        · exact List.not_mem_nil ch hchs
        · exact hchne (List.mem_singleton.mp hchs)
      cases hA : resolve_relative fs path (("./" ++ replaceDots m) ++ ".py") root with
      | some a =>
        rw [hA] at h
        simp only [Option.or] at h
        obtain rfl := Option.some.inj h
        exact resolve_segs_no_ascend fs path root _ a hpar hqA
          (strStarts_dotslash_py (replaceDots m)) hddA hexA hA
      | none =>
        rw [hA] at h
        simp only [Option.or] at h
        exact resolve_segs_no_ascend fs path root _ t hpar hqB
          (strStarts_dotslash (replaceDots m)) hddB hexB h
    · rw [if_neg hg] at h
      cases h

/-- C10 witness: a two-dot and a one-dot import of pkg.mod from proj/app/x.py
resolve to the same file, the regex fallback treats three leading dots like
one, and the resolved target of the two-dot import lies below proj/app. -/
theorem claim_C10_witness :
    (py_ast_target ⟨[["proj", "app", "x.py"], ["proj", "app", "pkg", "mod.py"]],
        [[], ["proj"], ["proj", "app"], ["proj", "app", "pkg"]], []⟩
      ["proj", "app", "x.py"] ["proj"] ⟨2, some "pkg.mod"⟩ =
     py_ast_target ⟨[["proj", "app", "x.py"], ["proj", "app", "pkg", "mod.py"]],
        [[], ["proj"], ["proj", "app"], ["proj", "app", "pkg"]], []⟩
      ["proj", "app", "x.py"] ["proj"] ⟨1, some "pkg.mod"⟩)
    ∧ (py_fallback_target ⟨[["proj", "app", "x.py"], ["proj", "app", "pkg", "mod.py"]],
        [[], ["proj"], ["proj", "app"], ["proj", "app", "pkg"]], []⟩
      ["proj", "app", "x.py"] ["proj"]
        (String.mk (List.replicate 3 '.') ++ "pkg.mod") =
       py_fallback_target ⟨[["proj", "app", "x.py"], ["proj", "app", "pkg", "mod.py"]],
        [[], ["proj"], ["proj", "app"], ["proj", "app", "pkg"]], []⟩
      ["proj", "app", "x.py"] ["proj"] ("." ++ "pkg.mod"))
    ∧ ∃ rest, ["proj", "app", "pkg", "mod.py"] = ["proj", "app"] ++ rest := by
  refine ⟨?_, ?_, ?_⟩
  · exact claim_C10_relative_import_levels.1
      ⟨[["proj", "app", "x.py"], ["proj", "app", "pkg", "mod.py"]],
        [[], ["proj"], ["proj", "app"], ["proj", "app", "pkg"]], []⟩
      ["proj", "app", "x.py"] ["proj"] 2 1 "pkg.mod" (by decide) (by decide)
  · exact claim_C10_relative_import_levels.2.1
      ⟨[["proj", "app", "x.py"], ["proj", "app", "pkg", "mod.py"]],
        [[], ["proj"], ["proj", "app"], ["proj", "app", "pkg"]], []⟩
      ["proj", "app", "x.py"] ["proj"] 3 "pkg.mod" (by decide)
  · exact claim_C10_relative_import_levels.2.2
      ⟨[["proj", "app", "x.py"], ["proj", "app", "pkg", "mod.py"]],
        [[], ["proj"], ["proj", "app"], ["proj", "app", "pkg"]], []⟩
      ["proj", "app", "x.py"] ["proj"] 2 "pkg.mod"
      ["proj", "app", "pkg", "mod.py"]
      (by decide) (by decide) ⟨'p', by decide, by decide⟩ (by decide)

/-- C1 witness: the classification theorem applied to a run where the project
directory owns two files that are both used, so it lands in neither list. -/
theorem claim_C1_witness :
    ["proj"] ∉ (categorize_folders ["proj"] [["proj", "a.html"], ["proj", "b.js"]]
      [["proj", "a.html"], ["proj", "b.js"]] [["proj"]]).1 ∧
    ["proj"] ∉ (categorize_folders ["proj"] [["proj", "a.html"], ["proj", "b.js"]]
      [["proj", "a.html"], ["proj", "b.js"]] [["proj"]]).2.1 :=
  (claim_C1_directory_classification ["proj"] [["proj", "a.html"], ["proj", "b.js"]]
    [["proj", "a.html"], ["proj", "b.js"]] [["proj"]] ["proj"]).2.2.2
    ⟨by decide, by decide⟩
